import Mathlib

/-!
Bloom filter with a rolling-hash substring scan.

A shallow embedding of `src/bloom_filter.cpp` and the properties of its
specification.

Conventions of the embedding.

* A `const char *` is the list of bytes readable from the pointer onwards, each
  byte a natural number (its unsigned bit pattern); `p + i` is `List.drop i`.
* A hash function is a function of the byte sequence it is handed, the `len`
  bytes at `input`.
* `int` parameters are integers; `unsigned int` and `uint64_t` values are
  natural numbers, reduced modulo `2 ^ 32` and `2 ^ 64` where the source
  arithmetic can wrap. Arithmetic on `int` is on 32 bits, two's complement
  (`wrapInt`).
* An operation whose C++ behaviour is undefined (a read or write outside the
  byte buffer, a remainder by zero, a read past the data, a byte sequence that
  is not wholly readable) returns `none`.
-/

namespace Bloom

/-- Modelled from the spec: the class `HashFunction`, a caller-supplied
collaborator that is not among the sources. `full` is the two-argument call
`(bytes, length) -> u64` on a byte sequence, `incr` is the four-argument call
`(bytes, length, departedByteCode, previousHash) -> u64` on a byte sequence,
the byte code that left the window and the previous hash. Both are
deterministic. -/
structure HashFunction where
  full : List Nat → Nat
  incr : List Nat → Nat → Nat → Nat

/-- The byte sequence `input[0 .. len)` handed to a hash function, when those
bytes are all readable. -/
def window (input : List Nat) (len : Int) : Option (List Nat) :=
  if 0 ≤ len ∧ len ≤ input.length then some (input.take len.toNat) else none

/-- The `uint64_t` a hash function returns on a byte sequence. -/
def HashFunction.value (h : HashFunction) (bytes : List Nat) : Nat :=
  h.full bytes % 2 ^ 64

/-- The `uint64_t` the incremental form returns on a byte sequence. -/
def HashFunction.valueIncr (h : HashFunction) (bytes : List Nat)
    (lastCharCode lastHash : Nat) : Nat :=
  h.incr bytes lastCharCode lastHash % 2 ^ 64

/-- The call `hashFunctions[j](input, len)`. -/
def HashFunction.call (h : HashFunction) (input : List Nat) (len : Int) : Option Nat :=
  match window input len with
  | none => none
  | some bytes => some (h.value bytes)

/-- The call `hashFunctions[j](input, len, lastCharCode, lastHash)`. -/
def HashFunction.callIncr (h : HashFunction) (input : List Nat) (len : Int)
    (lastCharCode lastHash : Nat) : Option Nat :=
  match window input len with
  | none => none
  | some bytes => some (h.valueIncr bytes lastCharCode lastHash)

/-- Modelled from the spec: the member declarations of `BloomFilter`, whose
header `bloom_filter.hpp` is not among the sources. The array `hashFunctions`
is kept together with its length, so `numHashFunctions` is the length of the
list. `byteBufferSize` and `bitBufferSize` are unsigned 32-bit values, like the
arguments of the sized constructor and the parameter of `setBit`; `lastHash` is
the scratch array of `uint64_t`; `buffer` is the array of `char`. -/
structure BloomFilter where
  hashFunctions : List HashFunction
  lastHash : List Nat
  byteBufferSize : Nat
  bitBufferSize : Nat
  buffer : List Nat

/-- The member `numHashFunctions`. -/
def BloomFilter.numHashFunctions (f : BloomFilter) : Nat :=
  f.hashFunctions.length

/-- Sized constructor (lines 9-19). The product, the quotient and the sum are
`unsigned int` operations, and so is `byteBufferSize * 8`. The scratch array is
allocated without being initialised; it is written before it is read. -/
def BloomFilter.sized (bitsPerElement estimatedNumElements : Nat)
    (hashFunctions : List HashFunction) : BloomFilter :=
  let byteBufferSize :=
    ((bitsPerElement * estimatedNumElements) % 2 ^ 32 / 8 + 1) % 2 ^ 32
  { hashFunctions := hashFunctions
    lastHash := List.replicate hashFunctions.length 0
    byteBufferSize := byteBufferSize
    bitBufferSize := (byteBufferSize * 8) % 2 ^ 32
    buffer := List.replicate byteBufferSize 0 }

/-- Import constructor (lines 22-32): copies `byteBufferSize` bytes of `buffer`.
The parameter `byteBufferSize` is an `int`; `byteBufferSize * 8` is computed on
32 bits and stored in the unsigned `bitBufferSize`. A negative size cannot be
allocated and a source shorter than `byteBufferSize` cannot be copied. -/
def BloomFilter.imported (buffer : List Nat) (byteBufferSize : Int)
    (hashFunctions : List HashFunction) : Option BloomFilter :=
  if byteBufferSize < 0 then none
  else if buffer.length < byteBufferSize.toNat then none
  else some
    { hashFunctions := hashFunctions
      lastHash := List.replicate hashFunctions.length 0
      byteBufferSize := byteBufferSize.toNat
      bitBufferSize := ((byteBufferSize * 8) % 2 ^ 32).toNat
      buffer := buffer.take byteBufferSize.toNat }

/-- The conversion of an unsigned value to `int`, which keeps the low 32 bits:
as when the member `byteBufferSize` is passed for the `int` parameter of
the import constructor, and as `static_cast<int>(strlen(sz))`. -/
def toInt (n : Nat) : Int :=
  if n % 2 ^ 32 < 2 ^ 31 then (n % 2 ^ 32 : Nat) else (n % 2 ^ 32 : Nat) - 2 ^ 32

/-- The method `setBit` (lines 43-45) on the byte buffer:
`buffer[bitLocation / 8] |= 1 << bitLocation % 8`, the result stored in a
`char`. -/
def setBit (buffer : List Nat) (bitLocation : Nat) : Option (List Nat) :=
  match buffer.get? (bitLocation / 8) with
  | none => none
  | some b =>
    some (buffer.set (bitLocation / 8) ((b ||| (1 <<< (bitLocation % 8))) % 256))

/-- The method `isBitSet` (lines 47-49) on the byte buffer:
`!!(buffer[bitLocation / 8] & 1 << bitLocation % 8)`. -/
def isBitSet (buffer : List Nat) (bitLocation : Nat) : Option Bool :=
  match buffer.get? (bitLocation / 8) with
  | none => none
  | some b => some ((b &&& (1 <<< (bitLocation % 8))) != 0)

/-- The expression `hash % bitBufferSize`; a remainder by zero is undefined. -/
def reduce (hash bitBufferSize : Nat) : Option Nat :=
  if bitBufferSize = 0 then none else some (hash % bitBufferSize)

/-- The expression `hashFunctions[j](input, len) % bitBufferSize`. -/
def hashIndex (h : HashFunction) (input : List Nat) (len : Int) (bitBufferSize : Nat) :
    Option Nat :=
  match h.call input len with
  | none => none
  | some hash => reduce hash bitBufferSize

/-- The loop of `add` (lines 52-54) over the hash functions still to run. -/
def addLoop (bitBufferSize : Nat) (input : List Nat) (len : Int) :
    List HashFunction → List Nat → Option (List Nat)
  | [], buffer => some buffer
  | h :: hs, buffer =>
    match hashIndex h input len bitBufferSize with
    | none => none
    | some loc =>
      match setBit buffer loc with
      | none => none
      | some buffer1 => addLoop bitBufferSize input len hs buffer1

/-- The method `add(input, len)` (lines 51-55). -/
def BloomFilter.add (f : BloomFilter) (input : List Nat) (len : Int) :
    Option BloomFilter :=
  match addLoop f.bitBufferSize input len f.hashFunctions f.buffer with
  | none => none
  | some buffer1 => some { f with buffer := buffer1 }

/-- The loop of `exists` (lines 63-65): `allSet && isBitSet(...)` evaluates the
hash and the bit only while `allSet` is still true. -/
def existsLoop (bitBufferSize : Nat) (buffer : List Nat) (input : List Nat)
    (len : Int) : List HashFunction → Bool → Option Bool
  | [], allSet => some allSet
  | h :: hs, allSet =>
    if allSet then
      match hashIndex h input len bitBufferSize with
      | none => none
      | some loc =>
        match isBitSet buffer loc with
        | none => none
        | some b => existsLoop bitBufferSize buffer input len hs b
    else existsLoop bitBufferSize buffer input len hs false

/-- The method `exists(input, len)` (lines 61-67). -/
def BloomFilter.exists (f : BloomFilter) (input : List Nat) (len : Int) :
    Option Bool :=
  existsLoop f.bitBufferSize f.buffer input len f.hashFunctions true

/-- The method `getHashesForCharCodes` (lines 73-83), from index `i` on, over the
hash functions still to run. `lastHashes = none` is the null pointer. The source
passes the same array as `lastHashes` and `newHashes`; entry `i` is read before
it is written and no later iteration reads it, so reading from the array as it
was on entry gives the same values. -/
def getHashesLoop (input : List Nat) (inputLen : Int) (lastHashes : Option (List Nat))
    (lastCharCode : Nat) : List HashFunction → Nat → List Nat → Option (List Nat)
  | [], _, newHashes => some newHashes
  | h :: hs, i, newHashes =>
    match lastHashes with
    | some last =>
      match last.get? i with
      | none => none
      | some l =>
        match h.callIncr input inputLen lastCharCode l with
        | none => none
        | some hash =>
          if i < newHashes.length then
            getHashesLoop input inputLen lastHashes lastCharCode hs (i + 1)
              (newHashes.set i hash)
          else none
    | none =>
      match h.call input inputLen with
      | none => none
      | some hash =>
        if i < newHashes.length then
          getHashesLoop input inputLen lastHashes lastCharCode hs (i + 1)
            (newHashes.set i hash)
        else none

/-- The method `getHashesForCharCodes` (lines 73-83); returns the contents of
`newHashes` after the call. -/
def getHashesForCharCodes (hashFunctions : List HashFunction) (input : List Nat)
    (inputLen : Int) (lastHashes : Option (List Nat)) (newHashes : List Nat)
    (lastCharCode : Nat) : Option (List Nat) :=
  getHashesLoop input inputLen lastHashes lastCharCode hashFunctions 0 newHashes

/-- The inner loop of `substringExists` (lines 92-94) over the indices `j` still
to run: `allSet && isBitSet(lastHash[j] % bitBufferSize)` reads the scratch
array and the bit only while `allSet` is still true. -/
def allSetLoop (bitBufferSize : Nat) (buffer : List Nat) (lastHash : List Nat) :
    List Nat → Bool → Option Bool
  | [], allSet => some allSet
  | j :: js, allSet =>
    if allSet then
      match lastHash.get? j with
      | none => none
      | some hv =>
        match reduce hv bitBufferSize with
        | none => none
        | some loc =>
          match isBitSet buffer loc with
          | none => none
          | some b => allSetLoop bitBufferSize buffer lastHash js b
    else allSetLoop bitBufferSize buffer lastHash js false

/-- The outer loop of `substringExists` (lines 88-99) with `remaining` iterations
left, at window start `i`. Returns the result and the scratch array. The byte
`data[i]` is converted to `unsigned char`. -/
def substringLoop (hashFunctions : List HashFunction) (bitBufferSize : Nat)
    (buffer : List Nat) (data : List Nat) (substringLength : Int) :
    Nat → Nat → List Nat → Nat → Option (Bool × List Nat)
  | 0, _, lastHash, _ => some (false, lastHash)
  | remaining + 1, i, lastHash, lastCharCode =>
    match getHashesForCharCodes hashFunctions (data.drop i) substringLength
        (if i = 0 then none else some lastHash) lastHash lastCharCode with
    | none => none
    | some lastHash1 =>
      match allSetLoop bitBufferSize buffer lastHash1
          (List.range hashFunctions.length) true with
      | none => none
      | some true => some (true, lastHash1)
      | some false =>
        match data.get? i with
        | none => none
        | some c =>
          substringLoop hashFunctions bitBufferSize buffer data substringLength
            remaining (i + 1) lastHash1 (c % 256)

/-- The value of an `int` expression: the result on 32 bits, two's complement,
so that an overflowing subtraction or addition wraps as in the compiled code. -/
def wrapInt (x : Int) : Int :=
  (x + 2 ^ 31) % 2 ^ 32 - 2 ^ 31

/-- The loop bound `dataLen - substringLength + 1` of `substringExists`
(line 88), an `int` expression: the subtraction and the addition are each on
32 bits. -/
def scanBound (dataLen substringLength : Int) : Int :=
  wrapInt (wrapInt (dataLen - substringLength) + 1)

/-- The method `substringExists(data, dataLen, substringLength)` (lines 85-101).
The loop runs while `i < dataLen - substringLength + 1`, that many times when
the bound, an `int`, is positive and not at all otherwise. Returns the result
and the filter, whose scratch array is the only member written. -/
def BloomFilter.substringExists (f : BloomFilter) (data : List Nat) (dataLen : Int)
    (substringLength : Int) : Option (Bool × BloomFilter) :=
  match substringLoop f.hashFunctions f.bitBufferSize f.buffer data substringLength
      (scanBound dataLen substringLength).toNat 0 f.lastHash 0 with
  | none => none
  | some (r, lastHash1) => some (r, { f with lastHash := lastHash1 })

/-- The method `clear` (lines 107-109): `memset(buffer, 0, byteBufferSize)`. -/
def BloomFilter.clear (f : BloomFilter) : Option BloomFilter :=
  if f.buffer.length < f.byteBufferSize then none
  else some { f with
    buffer := List.replicate f.byteBufferSize 0 ++ f.buffer.drop f.byteBufferSize }

/-- A sequence of `add(input, len)` calls, in order. -/
def addAll (f : BloomFilter) : List (List Nat × Int) → Option BloomFilter
  | [] => some f
  | (input, len) :: rest =>
    match BloomFilter.add f input len with
    | none => none
    | some f1 => addAll f1 rest

/-- The class invariant that both constructors establish and every method
keeps: the buffer has `byteBufferSize` elements, `bitBufferSize` is
`byteBufferSize * 8` on 32 bits, the scratch array has one entry for each
hash function, and every element of the `char` buffer is a byte. -/
def BloomFilter.WF (f : BloomFilter) : Prop :=
  f.buffer.length = f.byteBufferSize ∧
  f.bitBufferSize = f.byteBufferSize * 8 % 2 ^ 32 ∧
  f.lastHash.length = f.hashFunctions.length ∧
  ∀ x ∈ f.buffer, x < 256

instance (f : BloomFilter) : Decidable f.WF := by
  unfold BloomFilter.WF; infer_instance

/-- A byte sequence that can be handed to a hash function: `len` is not
negative and the `len` bytes at `input` are readable. -/
def Readable (input : List Nat) (len : Int) : Prop :=
  0 ≤ len ∧ len ≤ input.length

instance (input : List Nat) (len : Int) : Decidable (Readable input len) := by
  unfold Readable; infer_instance

/-- The incremental form of every hash function agrees with the full form on
the windows of a scan: for each window after the first, the incremental call on
that window, the departed byte `data[p]` and the full hash of the window before
returns the full hash of the window itself. -/
def RollingConsistent (hashFunctions : List HashFunction) (data : List Nat)
    (dataLen substringLength : Int) : Prop :=
  ∀ h ∈ hashFunctions, ∀ p < (dataLen - substringLength).toNat,
    h.valueIncr ((data.drop (p + 1)).take substringLength.toNat) (data.getD p 0 % 256)
        (h.value ((data.drop p).take substringLength.toNat)) =
      h.value ((data.drop (p + 1)).take substringLength.toNat)

instance (hashFunctions : List HashFunction) (data : List Nat)
    (dataLen substringLength : Int) :
    Decidable (RollingConsistent hashFunctions data dataLen substringLength) := by
  unfold RollingConsistent; infer_instance

/-- A rolling hash used in the concrete scenarios: the sum of the bytes on 64
bits; the incremental form subtracts the departed byte and adds the byte that
entered the window. -/
def sumHash : HashFunction where
  full := fun bytes => bytes.sum
  incr := fun bytes lastCharCode lastHash =>
    lastHash + 2 ^ 64 - lastCharCode + bytes.getLastD 0

/-- A second rolling hash used in the concrete scenarios: three times the sum
of the bytes plus the number of bytes. -/
def sumHash3 : HashFunction where
  full := fun bytes => 3 * bytes.sum + bytes.length
  incr := fun bytes lastCharCode lastHash =>
    lastHash + 3 * 2 ^ 64 - 3 * lastCharCode + 3 * bytes.getLastD 0

/-- The bytes of "alpha". -/
def alpha : List Nat := [97, 108, 112, 104, 97]

/-- The bytes of "xalphay", with the terminator. -/
def xalphay : List Nat := [120, 97, 108, 112, 104, 97, 121, 0]

/-- The filter of the concrete scenario: 10 bits for each of 10 elements, two
hash functions. -/
def scenario : BloomFilter := BloomFilter.sized 10 10 [sumHash, sumHash3]

/-- The filter of the concrete scenario after `add("alpha")`. -/
def scenarioAlpha : BloomFilter := (BloomFilter.add scenario alpha 5).getD scenario

/-- The bytes of "xxxxxxx", with the terminator. -/
def xxxxxxx : List Nat := [120, 120, 120, 120, 120, 120, 120, 0]

/-- The library function `strlen`: the position of the first zero byte, when
there is one among the readable bytes. -/
def strlen : List Nat → Option Nat
  | [] => none
  | b :: bs => if b = 0 then some 0 else (strlen bs).map (· + 1)

/-- The method `add(sz)` (lines 57-59). -/
def BloomFilter.addSz (f : BloomFilter) (sz : List Nat) : Option BloomFilter :=
  match strlen sz with
  | none => none
  | some n => BloomFilter.add f sz (toInt n)

/-- The method `exists(sz)` (lines 69-71). -/
def BloomFilter.existsSz (f : BloomFilter) (sz : List Nat) : Option Bool :=
  match strlen sz with
  | none => none
  | some n => BloomFilter.exists f sz (toInt n)

/-- The method `substringExists(data, substringLength)` (lines 103-105). -/
def BloomFilter.substringExistsSz (f : BloomFilter) (data : List Nat)
    (substringLength : Int) : Option (Bool × BloomFilter) :=
  match strlen data with
  | none => none
  | some n => BloomFilter.substringExists f data (toInt n) substringLength

/-- A query on a filter: a call of `exists` or of `substringExists`. -/
inductive Query where
  | existsQ (input : List Nat) (len : Int)
  | substringQ (data : List Nat) (dataLen : Int) (substringLength : Int)

/-- The result of a query and the filter after it. The method `exists` assigns
to no member, so the filter after it is the filter before. -/
def runQuery (f : BloomFilter) : Query → Option (Bool × BloomFilter)
  | .existsQ input len =>
    match BloomFilter.exists f input len with
    | none => none
    | some r => some (r, f)
  | .substringQ data dataLen substringLength =>
    BloomFilter.substringExists f data dataLen substringLength

/-- A sequence of queries, in order; returns the filter after the last. -/
def runQueries (f : BloomFilter) : List Query → Option BloomFilter
  | [] => some f
  | q :: qs =>
    match runQuery f q with
    | none => none
    | some (_, f1) => runQueries f1 qs

/-- The hash of window `i` of a scan under the calling contract of the rolling
hash: for the first window the full form on `data[0 .. w)`; for a later window
the incremental form on the window `data[i .. i+w)`, the departed byte
`data[i-1]` taken as an unsigned byte, and the hash of the window before. -/
def rollingHash (h : HashFunction) (data : List Nat) (substringLength : Int) : Nat → Nat
  | 0 => h.value (data.take substringLength.toNat)
  | i + 1 =>
    h.valueIncr ((data.drop (i + 1)).take substringLength.toNat) (data.getD i 0 % 256)
      (rollingHash h data substringLength i)

/-! ## Bits of a byte -/

theorem and_one_shiftLeft_ne_zero (b k : Nat) :
    ((b &&& (1 <<< k)) != 0) = b.testBit k := by
  rw [Nat.one_shiftLeft, Nat.and_two_pow]
  cases h : b.testBit k <;> simp [h]

theorem testBit_stored (b k j : Nat) (hj : j < 8) :
    ((b ||| (1 <<< k)) % 256).testBit j = (b.testBit j || decide (k = j)) := by
  have h256 : (256 : Nat) = 2 ^ 8 := by norm_num
  rw [h256, Nat.testBit_mod_two_pow, Nat.testBit_or, Nat.one_shiftLeft, Nat.testBit_two_pow]
  simp [hj]

/-! ## The bit buffer -/

theorem isBitSet_eq (buffer : List Nat) (loc : Nat) (h : loc / 8 < buffer.length) :
    isBitSet buffer loc = some (buffer[loc / 8].testBit (loc % 8)) := by
  unfold isBitSet
  rw [List.get?_eq_get h]
  simp [and_one_shiftLeft_ne_zero]

theorem setBit_eq (buffer : List Nat) (loc : Nat) (h : loc / 8 < buffer.length) :
    setBit buffer loc = some (buffer.set (loc / 8)
      ((buffer[loc / 8] ||| (1 <<< (loc % 8))) % 256)) := by
  unfold setBit
  rw [List.get?_eq_get h]
  simp

theorem setBit_length (buffer buffer1 : List Nat) (loc : Nat)
    (h : setBit buffer loc = some buffer1) : buffer1.length = buffer.length := by
  unfold setBit at h
  split at h
  · simp at h
  · simp at h; subst h; simp

theorem isBitSet_setBit (buffer buffer1 : List Nat) (loc b : Nat)
    (h : setBit buffer loc = some buffer1) (hb : b / 8 < buffer.length) :
    isBitSet buffer1 b = some true ↔ (b = loc ∨ isBitSet buffer b = some true) := by
  have hloc : loc / 8 < buffer.length := by
    unfold setBit at h
    split at h
    · simp at h
    · rename_i x hx
      exact (List.get?_eq_some.mp hx).1
  rw [setBit_eq buffer loc hloc] at h
  simp only [Option.some.injEq] at h
  subst h
  have hb1 : b / 8 < (buffer.set (loc / 8)
      ((buffer[loc / 8] ||| (1 <<< (loc % 8))) % 256)).length := by
    simpa using hb
  rw [isBitSet_eq _ b hb1, isBitSet_eq buffer b hb]
  simp only [Option.some.injEq]
  by_cases hq : loc / 8 = b / 8
  · have hget : (buffer.set (loc / 8)
        ((buffer[loc / 8] ||| (1 <<< (loc % 8))) % 256))[b / 8] =
        (buffer[b / 8] ||| (1 <<< (loc % 8))) % 256 := by
      simp [List.getElem_set, hq]
    rw [hget, testBit_stored _ _ _ (Nat.mod_lt _ (by norm_num))]
    simp only [Bool.or_eq_true, decide_eq_true_eq]
    constructor
    · rintro (h1 | h1)
      · exact Or.inr h1
      · left
        rw [← Nat.div_add_mod b 8, ← Nat.div_add_mod loc 8, hq, h1]
    · rintro (h1 | h1)
      · right; rw [h1]
      · exact Or.inl h1
  · have hget : (buffer.set (loc / 8)
        ((buffer[loc / 8] ||| (1 <<< (loc % 8))) % 256))[b / 8] =
        buffer[b / 8] := by
      simp [List.getElem_set, hq]
    rw [hget]
    constructor
    · intro h1; exact Or.inr h1
    · rintro (h1 | h1)
      · exact absurd (by rw [h1]) hq
      · exact h1

theorem isBitSet_isSome (buffer : List Nat) (loc : Nat) (h : loc / 8 < buffer.length) :
    ∃ r, isBitSet buffer loc = some r :=
  ⟨_, isBitSet_eq buffer loc h⟩

theorem div_lt_of_lt_bits (loc m n : Nat) (hloc : loc < m) (hm : m ≤ 8 * n) :
    loc / 8 < n := by
  omega

theorem reduce_pos (hash m : Nat) (hm : 0 < m) : reduce hash m = some (hash % m) := by
  unfold reduce
  rw [if_neg (by omega)]

/-! ## Calls of the hash functions -/

theorem window_eq (input : List Nat) (len : Int) (hr : Readable input len) :
    window input len = some (input.take len.toNat) := by
  unfold window
  exact if_pos hr

theorem call_eq (h : HashFunction) (input : List Nat) (len : Int)
    (hr : Readable input len) :
    h.call input len = some (h.value (input.take len.toNat)) := by
  simp [HashFunction.call, window_eq input len hr]

theorem callIncr_eq (h : HashFunction) (input : List Nat) (len : Int) (c l : Nat)
    (hr : Readable input len) :
    h.callIncr input len c l = some (h.valueIncr (input.take len.toNat) c l) := by
  simp [HashFunction.callIncr, window_eq input len hr]

theorem hashIndex_eq (h : HashFunction) (input : List Nat) (len : Int) (m : Nat)
    (hr : Readable input len) (hm : 0 < m) :
    hashIndex h input len m = some (h.value (input.take len.toNat) % m) := by
  simp [hashIndex, call_eq h input len hr, reduce_pos _ m hm]

theorem hashIndex_lt (h : HashFunction) (input : List Nat) (len : Int) (m loc : Nat)
    (hloc : hashIndex h input len m = some loc) : loc < m := by
  unfold hashIndex at hloc
  split at hloc
  · simp at hloc
  · unfold reduce at hloc
    split at hloc
    · simp at hloc
    · simp only [Option.some.injEq] at hloc
      rw [← hloc]
      exact Nat.mod_lt _ (by omega)

/-! ## Class invariant -/

theorem BloomFilter.WF.bits_le {f : BloomFilter} (hf : f.WF) :
    f.bitBufferSize ≤ 8 * f.buffer.length := by
  obtain ⟨h1, h2, _, _⟩ := hf
  rw [h1, h2]
  have := Nat.mod_le (f.byteBufferSize * 8) (2 ^ 32)
  omega

theorem sized_wf (bitsPerElement estimatedNumElements : Nat) (hs : List HashFunction) :
    (BloomFilter.sized bitsPerElement estimatedNumElements hs).WF := by
  simp [BloomFilter.WF, BloomFilter.sized]

theorem imported_wf (buffer : List Nat) (n : Int) (hs : List HashFunction)
    (f : BloomFilter) (hbytes : ∀ x ∈ buffer, x < 256)
    (h : BloomFilter.imported buffer n hs = some f) : f.WF := by
  unfold BloomFilter.imported at h
  split at h
  · simp at h
  · split at h
    · simp at h
    · rename_i h0 h1
      simp only [Option.some.injEq] at h
      subst h
      refine ⟨?_, ?_, ?_, ?_⟩
      · simp only [List.length_take]; omega
      · simp only
        have hn : n = (n.toNat : Int) := by omega
        generalize n.toNat = k at hn
        subst hn
        have : ((k : Int) * 8 % 2 ^ 32) = ((k * 8 % 2 ^ 32 : Nat) : Int) := by
          push_cast; rfl
        rw [this, Int.toNat_ofNat]
      · simp
      · intro x hx
        exact hbytes x (List.mem_of_mem_take hx)

/-! ## The loop of add -/

theorem addLoop_spec (m : Nat) (input : List Nat) (len : Int) (hm : 0 < m)
    (hr : Readable input len) :
    ∀ (hs : List HashFunction) (buffer : List Nat), m ≤ 8 * buffer.length →
      ∃ buffer1, addLoop m input len hs buffer = some buffer1 ∧
        buffer1.length = buffer.length ∧
        ((∀ x ∈ buffer, x < 256) → ∀ x ∈ buffer1, x < 256) ∧
        ∀ b, b / 8 < buffer.length →
          (isBitSet buffer1 b = some true ↔
            (isBitSet buffer b = some true ∨
              ∃ h ∈ hs, hashIndex h input len m = some b)) := by
  intro hs
  induction hs with
  | nil =>
    intro buffer _
    exact ⟨buffer, rfl, rfl, fun hb => hb, fun b _ => by simp⟩
  | cons h hs ih =>
    intro buffer hle
    have hidx := hashIndex_eq h input len m hr hm
    have hloc : h.value (input.take len.toNat) % m / 8 < buffer.length :=
      div_lt_of_lt_bits _ m _ (Nat.mod_lt _ hm) hle
    have hset := setBit_eq buffer (h.value (input.take len.toNat) % m) hloc
    have hlen := setBit_length buffer _ _ hset
    obtain ⟨buffer2, h2, hlen2, hbytes, hbits⟩ := ih _ (by rw [hlen]; exact hle)
    refine ⟨buffer2, ?_, by rw [hlen2, hlen], ?_, ?_⟩
    · simp only [addLoop, hidx, hset]
      exact h2
    · intro hb
      apply hbytes
      intro x hx
      rcases List.mem_or_eq_of_mem_set hx with hx1 | hx1
      · exact hb x hx1
      · rw [hx1]; exact Nat.mod_lt _ (by norm_num)
    · intro b hb
      rw [hbits b (by rw [hlen]; exact hb), isBitSet_setBit buffer _ _ b hset hb]
      simp only [List.mem_cons, exists_eq_or_imp, hidx, Option.some.injEq]
      constructor
      · rintro ((h1 | h1) | h1)
        · exact Or.inr (Or.inl h1.symm)
        · exact Or.inl h1
        · exact Or.inr (Or.inr h1)
      · rintro (h1 | h1 | h1)
        · exact Or.inl (Or.inr h1)
        · exact Or.inl (Or.inl h1.symm)
        · exact Or.inr h1

theorem add_spec (f : BloomFilter) (input : List Nat) (len : Int) (hf : f.WF)
    (hm : 0 < f.bitBufferSize) (hr : Readable input len) :
    ∃ buffer1, BloomFilter.add f input len = some { f with buffer := buffer1 } ∧
      buffer1.length = f.buffer.length ∧
      (∀ x ∈ buffer1, x < 256) ∧
      ∀ b, b / 8 < f.buffer.length →
        (isBitSet buffer1 b = some true ↔
          (isBitSet f.buffer b = some true ∨
            ∃ h ∈ f.hashFunctions, hashIndex h input len f.bitBufferSize = some b)) := by
  obtain ⟨buffer1, h1, h2, h3, h4⟩ :=
    addLoop_spec f.bitBufferSize input len hm hr f.hashFunctions f.buffer hf.bits_le
  exact ⟨buffer1, by simp [BloomFilter.add, h1], h2, h3 hf.2.2.2, h4⟩

theorem add_wf (f f1 : BloomFilter) (input : List Nat) (len : Int) (hf : f.WF)
    (hm : 0 < f.bitBufferSize) (hr : Readable input len)
    (h : BloomFilter.add f input len = some f1) :
    f1.WF ∧ f1.bitBufferSize = f.bitBufferSize ∧ f1.byteBufferSize = f.byteBufferSize ∧
      f1.hashFunctions = f.hashFunctions ∧ f1.lastHash = f.lastHash := by
  obtain ⟨buffer1, h1, h2, h3, _⟩ := add_spec f input len hf hm hr
  rw [h1] at h
  simp only [Option.some.injEq] at h
  subst h
  obtain ⟨w1, w2, w3, _⟩ := hf
  exact ⟨⟨by simpa [h2] using w1, w2, w3, h3⟩, rfl, rfl, rfl, rfl⟩

/-! ## The loop of exists -/

theorem existsLoop_spec (m : Nat) (buffer input : List Nat) (len : Int) (hm : 0 < m)
    (hle : m ≤ 8 * buffer.length) (hr : Readable input len) :
    ∀ (hs : List HashFunction) (allSet : Bool),
      ∃ r, existsLoop m buffer input len hs allSet = some r ∧
        (r = true ↔ (allSet = true ∧
          ∀ h ∈ hs, isBitSet buffer (h.value (input.take len.toNat) % m) = some true)) := by
  intro hs
  induction hs with
  | nil =>
    intro allSet
    exact ⟨allSet, rfl, by simp⟩
  | cons h hs ih =>
    intro allSet
    have hidx := hashIndex_eq h input len m hr hm
    have hloc : h.value (input.take len.toNat) % m / 8 < buffer.length :=
      div_lt_of_lt_bits _ m _ (Nat.mod_lt _ hm) hle
    cases allSet with
    | false =>
      obtain ⟨r, hr1, hiff⟩ := ih false
      refine ⟨r, by simpa [existsLoop] using hr1, ?_⟩
      rw [hiff]; simp
    | true =>
      obtain ⟨r, hr1, hiff⟩ := ih (buffer[h.value (input.take len.toNat) % m / 8].testBit
        (h.value (input.take len.toNat) % m % 8))
      refine ⟨r, ?_, ?_⟩
      · simp only [existsLoop, if_true, hidx, isBitSet_eq _ _ hloc]
        exact hr1
      · rw [hiff]
        simp only [List.mem_cons, forall_eq_or_imp, isBitSet_eq _ _ hloc, Option.some.injEq,
          true_and]

theorem exists_spec (f : BloomFilter) (input : List Nat) (len : Int) (hf : f.WF)
    (hm : 0 < f.bitBufferSize) (hr : Readable input len) :
    ∃ r, BloomFilter.exists f input len = some r ∧
      (r = true ↔ ∀ h ∈ f.hashFunctions,
        isBitSet f.buffer (h.value (input.take len.toNat) % f.bitBufferSize)
          = some true) := by
  obtain ⟨r, hr1, hiff⟩ :=
    existsLoop_spec f.bitBufferSize f.buffer input len hm hf.bits_le hr f.hashFunctions true
  exact ⟨r, hr1, by rw [hiff]; simp⟩

/-! ## Two byte buffers with the same bits are equal -/

theorem buffer_ext (l1 l2 : List Nat) (hlen : l1.length = l2.length)
    (h1 : ∀ x ∈ l1, x < 256) (h2 : ∀ x ∈ l2, x < 256)
    (hbits : ∀ b, b / 8 < l1.length →
      (isBitSet l1 b = some true ↔ isBitSet l2 b = some true)) : l1 = l2 := by
  apply List.ext_getElem hlen
  intro i hi1 hi2
  apply Nat.eq_of_testBit_eq
  intro j
  by_cases hj : j < 8
  · have hdiv : (8 * i + j) / 8 = i := by omega
    have hmod : (8 * i + j) % 8 = j := by omega
    have hb := hbits (8 * i + j) (by rw [hdiv]; exact hi1)
    rw [isBitSet_eq l1 _ (by rw [hdiv]; exact hi1),
      isBitSet_eq l2 _ (by rw [hdiv]; exact hi2)] at hb
    simp only [hdiv, hmod, Option.some.injEq] at hb
    exact Bool.eq_iff_iff.mpr hb
  · have hpow : (256 : Nat) ≤ 2 ^ j := by
      have : (2 : Nat) ^ 8 ≤ 2 ^ j := Nat.pow_le_pow_right (by norm_num) (by omega)
      simpa using this
    rw [Nat.testBit_lt_two_pow (lt_of_lt_of_le (h1 _ (List.getElem_mem hi1)) hpow),
      Nat.testBit_lt_two_pow (lt_of_lt_of_le (h2 _ (List.getElem_mem hi2)) hpow)]

/-! ## Sequences of add calls -/

theorem addAll_spec :
    ∀ (adds : List (List Nat × Int)) (f : BloomFilter), f.WF → 0 < f.bitBufferSize →
      (∀ a ∈ adds, Readable a.1 a.2) →
      ∃ f1, addAll f adds = some f1 ∧ f1.WF ∧ f1.bitBufferSize = f.bitBufferSize ∧
        f1.byteBufferSize = f.byteBufferSize ∧ f1.hashFunctions = f.hashFunctions ∧
        ∀ b, b / 8 < f.buffer.length →
          (isBitSet f1.buffer b = some true ↔
            (isBitSet f.buffer b = some true ∨
              ∃ a ∈ adds, ∃ h ∈ f.hashFunctions,
                hashIndex h a.1 a.2 f.bitBufferSize = some b)) := by
  intro adds
  induction adds with
  | nil =>
    intro f hf _ _
    exact ⟨f, rfl, hf, rfl, rfl, rfl, fun b _ => by simp⟩
  | cons a adds ih =>
    intro f hf hm hra
    obtain ⟨input, len⟩ := a
    have hr : Readable input len := hra (input, len) (List.mem_cons_self _ _)
    obtain ⟨buffer1, h1, hlen, _, hbits⟩ := add_spec f input len hf hm hr
    obtain ⟨w1, e1, e2, e3, _⟩ := add_wf f _ input len hf hm hr h1
    obtain ⟨f2, h2, w2, e4, e5, e6, hbits2⟩ :=
      ih _ w1 (by rw [e1]; exact hm) (fun a ha => hra a (List.mem_cons_of_mem _ ha))
    refine ⟨f2, ?_, w2, by rw [e4, e1], by rw [e5, e2], by rw [e6, e3], ?_⟩
    · simp only [addAll, h1]
      exact h2
    · intro b hb
      have hb2 := hbits2 b (by simpa [hlen] using hb)
      simp only at hb2
      rw [hb2, hbits b hb]
      simp only [List.mem_cons, exists_eq_or_imp, or_assoc]

/-! ## The rolling hashes of the scan -/

theorem take_succ_set (l : List Nat) (i v : Nat) (hi : i < l.length) :
    (l.set i v).take (i + 1) = l.take i ++ [v] := by
  rw [List.take_succ, List.set_take, List.set_eq_of_length_le (by simp)]
  simp [hi]

theorem getHashesLoop_first (input : List Nat) (len : Int) (c : Nat)
    (hr : Readable input len) :
    ∀ (hs : List HashFunction) (i : Nat) (newHashes : List Nat),
      newHashes.length = i + hs.length →
      getHashesLoop input len none c hs i newHashes =
        some (newHashes.take i ++ hs.map (fun h => h.value (input.take len.toNat))) := by
  intro hs
  induction hs with
  | nil =>
    intro i newHashes hlen
    simp only [List.length_nil, Nat.add_zero] at hlen
    simp [getHashesLoop, ← hlen]
  | cons h hs ih =>
    intro i newHashes hlen
    simp only [List.length_cons] at hlen
    have hi : i < newHashes.length := by omega
    simp only [getHashesLoop, call_eq h input len hr, if_pos hi]
    rw [ih (i + 1) _ (by simp only [List.length_set]; omega), take_succ_set _ _ _ hi]
    simp

theorem getHashesLoop_next (input : List Nat) (len : Int) (c : Nat) (last : List Nat)
    (hr : Readable input len) :
    ∀ (hs : List HashFunction) (i : Nat) (newHashes : List Nat),
      newHashes.length = i + hs.length → last.length = i + hs.length →
      getHashesLoop input len (some last) c hs i newHashes =
        some (newHashes.take i ++
          List.zipWith (fun h l => h.valueIncr (input.take len.toNat) c l) hs
            (last.drop i)) := by
  intro hs
  induction hs with
  | nil =>
    intro i newHashes hlen _
    simp only [List.length_nil, Nat.add_zero] at hlen
    simp [getHashesLoop, ← hlen]
  | cons h hs ih =>
    intro i newHashes hlen hlast
    simp only [List.length_cons] at hlen hlast
    have hi : i < newHashes.length := by omega
    have hil : i < last.length := by omega
    simp only [getHashesLoop, List.get?_eq_get hil, callIncr_eq h input len c _ hr, if_pos hi]
    rw [ih (i + 1) _ (by simp only [List.length_set]; omega) (by omega),
      take_succ_set _ _ _ hi, List.drop_eq_getElem_cons hil, List.zipWith_cons_cons]
    simp

theorem zipWith_consistent (bytes prev : List Nat) (c : Nat) :
    ∀ hs : List HashFunction,
      (∀ h ∈ hs, h.valueIncr bytes c (h.value prev) = h.value bytes) →
      List.zipWith (fun h l => h.valueIncr bytes c l) hs (hs.map (fun h => h.value prev)) =
        hs.map (fun h => h.value bytes) := by
  intro hs
  induction hs with
  | nil => intro _; rfl
  | cons h hs ih =>
    intro hc
    simp only [List.map_cons, List.zipWith_cons_cons]
    rw [hc h (List.mem_cons_self _ _), ih (fun x hx => hc x (List.mem_cons_of_mem _ hx))]

theorem allSetLoop_spec (m : Nat) (buffer lastHash : List Nat) (hm : 0 < m)
    (hle : m ≤ 8 * buffer.length) :
    ∀ (js : List Nat) (allSet : Bool), (∀ j ∈ js, j < lastHash.length) →
      ∃ r, allSetLoop m buffer lastHash js allSet = some r ∧
        (r = true ↔ (allSet = true ∧
          ∀ j ∈ js, ∀ hv, lastHash.get? j = some hv →
            isBitSet buffer (hv % m) = some true)) := by
  intro js
  induction js with
  | nil =>
    intro allSet _
    exact ⟨allSet, rfl, by simp⟩
  | cons j js ih =>
    intro allSet hjs
    have hj : j < lastHash.length := hjs j (List.mem_cons_self _ _)
    have hjs1 : ∀ x ∈ js, x < lastHash.length := fun x hx => hjs x (List.mem_cons_of_mem _ hx)
    have hloc : lastHash[j] % m / 8 < buffer.length :=
      div_lt_of_lt_bits _ m _ (Nat.mod_lt _ hm) hle
    cases allSet with
    | false =>
      obtain ⟨r, hr1, hiff⟩ := ih false hjs1
      refine ⟨r, by simpa [allSetLoop] using hr1, ?_⟩
      rw [hiff]; simp
    | true =>
      obtain ⟨r, hr1, hiff⟩ := ih (buffer[lastHash[j] % m / 8].testBit
        (lastHash[j] % m % 8)) hjs1
      refine ⟨r, ?_, ?_⟩
      · simp only [allSetLoop, if_true, List.get?_eq_get hj, List.get_eq_getElem,
          reduce_pos _ _ hm, isBitSet_eq _ _ hloc]
        exact hr1
      · rw [hiff]
        simp only [List.mem_cons, forall_eq_or_imp, List.get?_eq_get hj, List.get_eq_getElem,
          Option.some.injEq, forall_eq', isBitSet_eq _ _ hloc, true_and]

theorem allSetLoop_range (m : Nat) (buffer lastHash : List Nat) (hm : 0 < m)
    (hle : m ≤ 8 * buffer.length) :
    ∃ r, allSetLoop m buffer lastHash (List.range lastHash.length) true = some r ∧
      (r = true ↔ ∀ hv ∈ lastHash, isBitSet buffer (hv % m) = some true) := by
  obtain ⟨r, hr1, hiff⟩ := allSetLoop_spec m buffer lastHash hm hle
    (List.range lastHash.length) true (fun j hj => List.mem_range.mp hj)
  refine ⟨r, hr1, ?_⟩
  rw [hiff]
  simp only [true_and]
  constructor
  · intro h hv hmem
    obtain ⟨j, hj⟩ := List.mem_iff_get?.mp hmem
    have hjl : j < lastHash.length := (List.get?_eq_some.mp hj).1
    exact h j (List.mem_range.mpr hjl) hv hj
  · intro h j _ hv hj
    exact h hv (List.mem_iff_get?.mpr ⟨j, hj⟩)

theorem substringLoop_spec (hs : List HashFunction) (m : Nat) (buffer data : List Nat)
    (w : Int) (count : Nat) (hm : 0 < m) (hle : m ≤ 8 * buffer.length) (hw : 1 ≤ w)
    (hdata : count + w.toNat ≤ data.length + 1)
    (hcons : ∀ h ∈ hs, ∀ p, p + 1 < count →
      h.valueIncr ((data.drop (p + 1)).take w.toNat) (data.getD p 0 % 256)
          (h.value ((data.drop p).take w.toNat)) =
        h.value ((data.drop (p + 1)).take w.toNat)) :
    ∀ (remaining i : Nat) (lastHash : List Nat) (c : Nat),
      i + remaining = count → lastHash.length = hs.length →
      (i = 0 ∨ ∃ p, i = p + 1 ∧
        lastHash = hs.map (fun h => h.value ((data.drop p).take w.toNat)) ∧
        c = data.getD p 0 % 256) →
      ∃ r lastHash1,
        substringLoop hs m buffer data w remaining i lastHash c = some (r, lastHash1) ∧
        lastHash1.length = hs.length ∧
        (r = true ↔ ∃ q, i ≤ q ∧ q < count ∧
          ∀ h ∈ hs, isBitSet buffer (h.value ((data.drop q).take w.toNat) % m)
            = some true) := by
  intro remaining
  induction remaining with
  | zero =>
    intro i lastHash c hcount hlen _
    refine ⟨false, lastHash, rfl, hlen, ?_⟩
    simp only [Bool.false_eq_true, false_iff, not_exists, not_and]
    intro q h1 h2
    omega
  | succ remaining ih =>
    intro i lastHash c hcount hlen hinv
    have hwn : (w.toNat : Int) = w := Int.toNat_of_nonneg (by omega)
    have hw1 : 1 ≤ w.toNat := by omega
    have hr : Readable (data.drop i) w := by
      refine ⟨by omega, ?_⟩
      rw [List.length_drop, ← hwn]
      omega
    have hhash : getHashesForCharCodes hs (data.drop i) w
        (if i = 0 then none else some lastHash) lastHash c =
        some (hs.map (fun h => h.value ((data.drop i).take w.toNat))) := by
      unfold getHashesForCharCodes
      rcases hinv with h0 | ⟨p, hp, hlast, hc⟩
      · rw [if_pos h0, getHashesLoop_first _ _ _ hr hs 0 lastHash (by omega)]
        simp
      · rw [if_neg (by omega),
          getHashesLoop_next _ _ _ _ hr hs 0 lastHash (by omega) (by omega)]
        simp only [List.take_zero, List.nil_append, List.drop_zero, Option.some.injEq]
        rw [hlast]
        apply zipWith_consistent
        intro h hh
        rw [hc, hp]
        exact hcons h hh p (by omega)
    obtain ⟨r0, hr0, hiff0⟩ := allSetLoop_range m buffer
      (hs.map (fun h => h.value ((data.drop i).take w.toNat))) hm hle
    rw [List.length_map] at hr0
    have hiff0' : r0 = true ↔ ∀ h ∈ hs,
        isBitSet buffer (h.value ((data.drop i).take w.toNat) % m) = some true := by
      rw [hiff0]
      simp only [List.mem_map, forall_exists_index, and_imp, forall_apply_eq_imp_iff₂]
    cases r0 with
    | true =>
      refine ⟨true, hs.map (fun h => h.value ((data.drop i).take w.toNat)), ?_,
        List.length_map _ _, ?_⟩
      · simp only [substringLoop, hhash, hr0]
      · simp only [true_iff]
        exact ⟨i, le_refl _, by omega, hiff0'.mp rfl⟩
    | false =>
      have hi : i < data.length := by omega
      obtain ⟨r, lastHash1, h1, hlen1, hiff1⟩ :=
        ih (i + 1) (hs.map (fun h => h.value ((data.drop i).take w.toNat)))
          (data[i] % 256) (by omega) (List.length_map _ _)
          (Or.inr ⟨i, rfl, rfl, by rw [List.getD_eq_getElem _ _ hi]⟩)
      refine ⟨r, lastHash1, ?_, hlen1, ?_⟩
      · simp only [substringLoop, hhash, hr0, List.get?_eq_get hi, List.get_eq_getElem]
        exact h1
      · rw [hiff1]
        constructor
        · rintro ⟨q, hq1, hq2, hq3⟩
          exact ⟨q, by omega, hq2, hq3⟩
        · rintro ⟨q, hq1, hq2, hq3⟩
          have hne : q ≠ i := by
            rintro rfl
            have := hiff0'.mpr hq3
            simp at this
          exact ⟨q, by omega, hq2, hq3⟩

theorem exists_true_iff (f : BloomFilter) (input : List Nat) (len : Int) (hf : f.WF)
    (hm : 0 < f.bitBufferSize) (hr : Readable input len) :
    BloomFilter.exists f input len = some true ↔
      ∀ h ∈ f.hashFunctions,
        isBitSet f.buffer (h.value (input.take len.toNat) % f.bitBufferSize)
          = some true := by
  obtain ⟨r, hr1, hiff⟩ := exists_spec f input len hf hm hr
  rw [hr1, ← hiff]
  simp

theorem addAll_exists (f : BloomFilter) (hf : f.WF) (hm : 0 < f.bitBufferSize)
    (before after : List (List Nat × Int)) (v : List Nat) (len : Int)
    (hother : ∀ a ∈ before ++ after, Readable a.1 a.2) (hv : Readable v len) :
    ∃ f1, addAll f (before ++ (v, len) :: after) = some f1 ∧ f1.WF ∧
      f1.bitBufferSize = f.bitBufferSize ∧ f1.hashFunctions = f.hashFunctions ∧
      BloomFilter.exists f1 v len = some true := by
  have hall : ∀ a ∈ before ++ (v, len) :: after, Readable a.1 a.2 := by
    intro a ha
    simp only [List.mem_append, List.mem_cons] at ha hother
    rcases ha with ha | rfl | ha
    · exact hother a (Or.inl ha)
    · exact hv
    · exact hother a (Or.inr ha)
  obtain ⟨f1, h1, w1, e1, _, e3, hbits⟩ :=
    addAll_spec (before ++ (v, len) :: after) f hf hm hall
  refine ⟨f1, h1, w1, e1, e3, ?_⟩
  rw [exists_true_iff f1 v len w1 (by rw [e1]; exact hm) hv]
  intro h hh
  rw [e1]
  have hloc : h.value (v.take len.toNat) % f.bitBufferSize / 8 < f.buffer.length :=
    div_lt_of_lt_bits _ _ _ (Nat.mod_lt _ hm) hf.bits_le
  rw [hbits _ hloc]
  right
  exact ⟨(v, len), by simp, h, by rw [← e3]; exact hh, hashIndex_eq h v len _ hv hm⟩

theorem scanBound_eq (n w : Int) (h1 : -(2 ^ 31) ≤ n - w) (h2 : n - w + 1 < 2 ^ 31) :
    scanBound n w = n - w + 1 := by
  unfold scanBound wrapInt
  omega

theorem readable_drop (data : List Nat) (n w : Int) (i : Nat) (hw : 1 ≤ w)
    (hn : n ≤ data.length) (hi : (i : Int) ≤ n - w) : Readable (data.drop i) w := by
  refine ⟨by omega, ?_⟩
  rw [List.length_drop]
  omega

theorem substringExists_spec (f : BloomFilter) (hf : f.WF) (hm : 0 < f.bitBufferSize)
    (data : List Nat) (n w : Int) (hw : 1 ≤ w) (hwn : w ≤ n) (hn : n ≤ data.length)
    (hint : n < 2 ^ 31) (hcons : RollingConsistent f.hashFunctions data n w) :
    ∃ r f1, BloomFilter.substringExists f data n w = some (r, f1) ∧
      f1.buffer = f.buffer ∧ f1.byteBufferSize = f.byteBufferSize ∧
      f1.bitBufferSize = f.bitBufferSize ∧
      (r = true ↔ ∃ i : Nat, (i : Int) ≤ n - w ∧
        BloomFilter.exists f (data.drop i) w = some true) := by
  obtain ⟨r, lastHash1, h1, _, hiff⟩ :=
    substringLoop_spec f.hashFunctions f.bitBufferSize f.buffer data w
      (n - w + 1).toNat hm hf.bits_le hw (by omega)
      (fun h hh p hp => hcons h hh p (by omega))
      (n - w + 1).toNat 0 f.lastHash 0 (by omega) hf.2.2.1 (Or.inl rfl)
  refine ⟨r, { f with lastHash := lastHash1 }, ?_, rfl, rfl, rfl, ?_⟩
  · simp only [BloomFilter.substringExists, scanBound_eq n w (by omega) (by omega), h1]
  · rw [hiff]
    constructor
    · rintro ⟨q, _, hq, hbits⟩
      have hqi : (q : Int) ≤ n - w := by omega
      refine ⟨q, hqi, ?_⟩
      rw [exists_true_iff f _ w hf hm (readable_drop data n w q hw hn hqi)]
      exact hbits
    · rintro ⟨q, hqi, hex⟩
      refine ⟨q, Nat.zero_le _, by omega, ?_⟩
      rw [exists_true_iff f _ w hf hm (readable_drop data n w q hw hn hqi)] at hex
      exact hex

/-! ## What a completed add keeps -/

theorem addLoop_keeps (m : Nat) (input : List Nat) (len : Int) :
    ∀ (hs : List HashFunction) (buffer buffer1 : List Nat),
      addLoop m input len hs buffer = some buffer1 →
      buffer1.length = buffer.length ∧
        ((∀ x ∈ buffer, x < 256) → ∀ x ∈ buffer1, x < 256) := by
  intro hs
  induction hs with
  | nil =>
    intro buffer buffer1 h
    simp only [addLoop, Option.some.injEq] at h
    subst h
    exact ⟨rfl, fun hb => hb⟩
  | cons h hs ih =>
    intro buffer buffer1 hadd
    simp only [addLoop] at hadd
    split at hadd
    · simp at hadd
    · rename_i loc _
      split at hadd
      · simp at hadd
      · rename_i buffer2 hset
        obtain ⟨hlen, hbytes⟩ := ih buffer2 buffer1 hadd
        have hlen2 := setBit_length buffer buffer2 loc hset
        refine ⟨by rw [hlen, hlen2], fun hb => hbytes ?_⟩
        intro x hx
        unfold setBit at hset
        split at hset
        · simp at hset
        · simp only [Option.some.injEq] at hset
          subst hset
          rcases List.mem_or_eq_of_mem_set hx with hx1 | hx1
          · exact hb x hx1
          · rw [hx1]; exact Nat.mod_lt _ (by norm_num)

theorem add_keeps (f f1 : BloomFilter) (input : List Nat) (len : Int) (hf : f.WF)
    (h : BloomFilter.add f input len = some f1) :
    f1.WF ∧ f1.bitBufferSize = f.bitBufferSize ∧ f1.byteBufferSize = f.byteBufferSize ∧
      f1.hashFunctions = f.hashFunctions := by
  unfold BloomFilter.add at h
  split at h
  · simp at h
  · rename_i buffer1 hloop
    simp only [Option.some.injEq] at h
    subst h
    obtain ⟨hlen, hbytes⟩ := addLoop_keeps _ _ _ _ _ _ hloop
    obtain ⟨w1, w2, w3, w4⟩ := hf
    exact ⟨⟨by simpa [hlen] using w1, w2, w3, hbytes w4⟩, rfl, rfl, rfl⟩

theorem addAll_keeps :
    ∀ (adds : List (List Nat × Int)) (f f1 : BloomFilter), f.WF →
      addAll f adds = some f1 →
      f1.WF ∧ f1.bitBufferSize = f.bitBufferSize ∧ f1.byteBufferSize = f.byteBufferSize ∧
        f1.hashFunctions = f.hashFunctions := by
  intro adds
  induction adds with
  | nil =>
    intro f f1 hf h
    simp only [addAll, Option.some.injEq] at h
    subst h
    exact ⟨hf, rfl, rfl, rfl⟩
  | cons a adds ih =>
    intro f f1 hf h
    obtain ⟨input, len⟩ := a
    simp only [addAll] at h
    split at h
    · simp at h
    · rename_i f2 hadd
      obtain ⟨w2, e1, e2, e3⟩ := add_keeps f f2 input len hf hadd
      obtain ⟨w1, e4, e5, e6⟩ := ih f2 f1 w2 h
      exact ⟨w1, by rw [e4, e1], by rw [e5, e2], by rw [e6, e3]⟩

/-! ## The constructors -/

theorem sized_byteBufferSize_le (bitsPerElement estimatedNumElements : Nat)
    (hs : List HashFunction) :
    (BloomFilter.sized bitsPerElement estimatedNumElements hs).byteBufferSize ≤ 2 ^ 29 := by
  simp only [BloomFilter.sized]
  have h1 := Nat.mod_lt (bitsPerElement * estimatedNumElements) (by norm_num : 0 < 2 ^ 32)
  have h2 := Nat.mod_le ((bitsPerElement * estimatedNumElements) % 2 ^ 32 / 8 + 1) (2 ^ 32)
  omega

theorem sized_byteBufferSize_eq (bitsPerElement estimatedNumElements : Nat)
    (hs : List HashFunction) :
    (BloomFilter.sized bitsPerElement estimatedNumElements hs).byteBufferSize =
        (bitsPerElement * estimatedNumElements) % 2 ^ 32 / 8 + 1 ∧
      1 ≤ (BloomFilter.sized bitsPerElement estimatedNumElements hs).byteBufferSize := by
  simp only [BloomFilter.sized]
  have h1 := Nat.mod_lt (bitsPerElement * estimatedNumElements) (by norm_num : 0 < 2 ^ 32)
  omega

theorem sized_buffer_zero (bitsPerElement estimatedNumElements : Nat)
    (hs : List HashFunction) :
    (BloomFilter.sized bitsPerElement estimatedNumElements hs).buffer.length =
        (BloomFilter.sized bitsPerElement estimatedNumElements hs).byteBufferSize ∧
      ∀ x ∈ (BloomFilter.sized bitsPerElement estimatedNumElements hs).buffer, x = 0 := by
  simp only [BloomFilter.sized, List.length_replicate, true_and]
  intro x hx
  exact (List.mem_replicate.mp hx).2

theorem sized_bitBufferSize_eq_zero_iff (bitsPerElement estimatedNumElements : Nat)
    (hs : List HashFunction) :
    (BloomFilter.sized bitsPerElement estimatedNumElements hs).bitBufferSize = 0 ↔
      2 ^ 32 - 8 ≤ (bitsPerElement * estimatedNumElements) % 2 ^ 32 := by
  simp only [BloomFilter.sized]
  have h1 := Nat.mod_lt (bitsPerElement * estimatedNumElements) (by norm_num : 0 < 2 ^ 32)
  omega

theorem imported_of_wf (f1 : BloomFilter) (hf : f1.WF) (hle : f1.byteBufferSize ≤ 2 ^ 29) :
    BloomFilter.imported f1.buffer (toInt f1.byteBufferSize) f1.hashFunctions =
      some { f1 with lastHash := List.replicate f1.hashFunctions.length 0 } := by
  obtain ⟨w1, w2, _, _⟩ := hf
  have hint : toInt f1.byteBufferSize = (f1.byteBufferSize : Int) := by
    unfold toInt
    have hmod : f1.byteBufferSize % 2 ^ 32 = f1.byteBufferSize :=
      Nat.mod_eq_of_lt (by omega)
    rw [hmod, if_pos (by omega)]
  rw [hint]
  unfold BloomFilter.imported
  rw [if_neg (by omega), if_neg (by rw [Int.toNat_ofNat]; omega)]
  have hbits : (((f1.byteBufferSize : Int) * 8) % 2 ^ 32).toNat = f1.bitBufferSize := by
    have : ((f1.byteBufferSize : Int) * 8 % 2 ^ 32) =
        ((f1.byteBufferSize * 8 % 2 ^ 32 : Nat) : Int) := by
      push_cast; rfl
    rw [this, Int.toNat_ofNat, w2]
  rw [hbits, Int.toNat_ofNat, ← w1, List.take_length]

theorem replicate_zero_bit (n loc : Nat) (h : loc / 8 < n) :
    isBitSet (List.replicate n 0) loc = some false := by
  rw [isBitSet_eq _ _ (by simpa using h)]
  simp

/-! ## Setting a bit -/

theorem setBit_bytes (buffer buffer1 : List Nat) (loc : Nat)
    (h : setBit buffer loc = some buffer1) (hb : ∀ x ∈ buffer, x < 256) :
    ∀ x ∈ buffer1, x < 256 := by
  intro x hx
  unfold setBit at h
  split at h
  · simp at h
  · simp only [Option.some.injEq] at h
    subst h
    rcases List.mem_or_eq_of_mem_set hx with hx1 | hx1
    · exact hb x hx1
    · rw [hx1]; exact Nat.mod_lt _ (by norm_num)

theorem isBitSet_eq_of_iff (l1 l2 : List Nat) (b : Nat) (h1 : b / 8 < l1.length)
    (h2 : b / 8 < l2.length)
    (h : isBitSet l1 b = some true ↔ isBitSet l2 b = some true) :
    isBitSet l1 b = isBitSet l2 b := by
  rw [isBitSet_eq l1 b h1, isBitSet_eq l2 b h2] at h ⊢
  simp only [Option.some.injEq] at h ⊢
  exact Bool.eq_iff_iff.mpr h

theorem setBit_get_other (buffer buffer1 : List Nat) (loc p : Nat)
    (h : setBit buffer loc = some buffer1) (hp : p ≠ loc / 8) :
    buffer1.get? p = buffer.get? p := by
  unfold setBit at h
  split at h
  · simp at h
  · simp only [Option.some.injEq] at h
    subst h
    simp only [List.get?_eq_getElem?]
    exact List.getElem?_set_ne (Ne.symm hp)

/-! ## The string forms -/

theorem strlen_eq :
    ∀ (sz : List Nat) (n : Nat), sz.get? n = some 0 →
      (∀ i < n, ∃ b, sz.get? i = some b ∧ b ≠ 0) → strlen sz = some n := by
  intro sz
  induction sz with
  | nil => intro n h _; simp at h
  | cons b bs ih =>
    intro n hzero hfirst
    cases n with
    | zero =>
      simp only [List.get?_cons_zero, Option.some.injEq] at hzero
      simp [strlen, hzero]
    | succ n =>
      obtain ⟨b0, hb0, hne⟩ := hfirst 0 (Nat.succ_pos n)
      simp only [List.get?_cons_zero, Option.some.injEq] at hb0
      have hb : b ≠ 0 := by rw [hb0]; exact hne
      have hrest := ih n (by simpa using hzero) (by
        intro i hi
        have := hfirst (i + 1) (by omega)
        simpa using this)
      simp [strlen, hb, hrest]

theorem toInt_eq (n : Nat) (h : n < 2 ^ 31) : toInt n = (n : Int) := by
  unfold toInt
  have hmod : n % 2 ^ 32 = n := Nat.mod_eq_of_lt (by omega)
  rw [hmod, if_pos h]

/-! ## Sequences of add calls with the same values -/

theorem addAll_same_values (f : BloomFilter) (hf : f.WF) (hm : 0 < f.bitBufferSize)
    (adds1 adds2 : List (List Nat × Int))
    (h1 : ∀ a ∈ adds1, Readable a.1 a.2) (h2 : ∀ a ∈ adds2, Readable a.1 a.2)
    (hsame : ∀ a, a ∈ adds1 ↔ a ∈ adds2) :
    ∃ f1 f2, addAll f adds1 = some f1 ∧ addAll f adds2 = some f2 ∧
      f1.buffer = f2.buffer := by
  obtain ⟨f1, e1, w1, _, b1, _, hbits1⟩ := addAll_spec adds1 f hf hm h1
  obtain ⟨f2, e2, w2, _, b2, _, hbits2⟩ := addAll_spec adds2 f hf hm h2
  refine ⟨f1, f2, e1, e2, ?_⟩
  have hl1 : f1.buffer.length = f.buffer.length := by rw [w1.1, b1, hf.1]
  have hl2 : f2.buffer.length = f.buffer.length := by rw [w2.1, b2, hf.1]
  apply buffer_ext _ _ (by rw [hl1, hl2]) w1.2.2.2 w2.2.2.2
  intro b hb
  rw [hl1] at hb
  rw [hbits1 b hb, hbits2 b hb]
  apply or_congr Iff.rfl
  constructor
  · rintro ⟨a, ha, rest⟩
    exact ⟨a, (hsame a).mp ha, rest⟩
  · rintro ⟨a, ha, rest⟩
    exact ⟨a, (hsame a).mpr ha, rest⟩

theorem addAll_two (f f2 : BloomFilter) (a b : List Nat × Int)
    (h : addAll f [a, b] = some f2) :
    ∃ f1, BloomFilter.add f a.1 a.2 = some f1 ∧ BloomFilter.add f1 b.1 b.2 = some f2 := by
  obtain ⟨a1, a2⟩ := a
  obtain ⟨b1, b2⟩ := b
  simp only [addAll] at h
  split at h
  · simp at h
  · rename_i f1 h1
    refine ⟨f1, h1, ?_⟩
    split at h
    · simp at h
    · rename_i f3 h3
      simp only [Option.some.injEq] at h
      rw [← h]; exact h3

/-! ## The scan under the calling contract -/

theorem zipWith_map_same (bytes : List Nat) (c : Nat) (g : HashFunction → Nat) :
    ∀ hs : List HashFunction,
      List.zipWith (fun h l => h.valueIncr bytes c l) hs (hs.map g) =
        hs.map (fun h => h.valueIncr bytes c (g h)) := by
  intro hs
  induction hs with
  | nil => rfl
  | cons h hs ih => simp only [List.map_cons, List.zipWith_cons_cons, ih]

theorem substringLoop_contract (hs : List HashFunction) (m : Nat) (buffer data : List Nat)
    (w : Int) (count : Nat) (hm : 0 < m) (hle : m ≤ 8 * buffer.length) (hw : 1 ≤ w)
    (hdata : count + w.toNat ≤ data.length + 1) :
    ∀ (remaining i : Nat) (lastHash : List Nat) (c : Nat),
      i + remaining = count → lastHash.length = hs.length →
      (i = 0 ∨ ∃ p, i = p + 1 ∧
        lastHash = hs.map (fun h => rollingHash h data w p) ∧
        c = data.getD p 0 % 256) →
      ∃ r lastHash1,
        substringLoop hs m buffer data w remaining i lastHash c = some (r, lastHash1) ∧
        lastHash1.length = hs.length ∧
        (r = true → ∃ q, i ≤ q ∧ q < count ∧
          (∀ h ∈ hs, isBitSet buffer (rollingHash h data w q % m) = some true) ∧
          (∀ q1, i ≤ q1 → q1 < q →
            ¬ ∀ h ∈ hs, isBitSet buffer (rollingHash h data w q1 % m) = some true) ∧
          lastHash1 = hs.map (fun h => rollingHash h data w q)) ∧
        (r = false →
          (∀ q, i ≤ q → q < count →
            ¬ ∀ h ∈ hs, isBitSet buffer (rollingHash h data w q % m) = some true) ∧
          (0 < remaining →
            lastHash1 = hs.map (fun h => rollingHash h data w (count - 1)))) := by
  intro remaining
  induction remaining with
  | zero =>
    intro i lastHash c hcount hlen _
    refine ⟨false, lastHash, rfl, hlen, by simp, fun _ => ⟨?_, by simp⟩⟩
    intro q h1 h2
    omega
  | succ remaining ih =>
    intro i lastHash c hcount hlen hinv
    have hwn : (w.toNat : Int) = w := Int.toNat_of_nonneg (by omega)
    have hw1 : 1 ≤ w.toNat := by omega
    have hr : Readable (data.drop i) w := by
      refine ⟨by omega, ?_⟩
      rw [List.length_drop, ← hwn]
      omega
    have hhash : getHashesForCharCodes hs (data.drop i) w
        (if i = 0 then none else some lastHash) lastHash c =
        some (hs.map (fun h => rollingHash h data w i)) := by
      unfold getHashesForCharCodes
      rcases hinv with h0 | ⟨p, hp, hlast, hc⟩
      · rw [if_pos h0, getHashesLoop_first _ _ _ hr hs 0 lastHash (by omega)]
        subst h0
        simp [rollingHash]
      · rw [if_neg (by omega),
          getHashesLoop_next _ _ _ _ hr hs 0 lastHash (by omega) (by omega)]
        simp only [List.take_zero, List.nil_append, List.drop_zero, Option.some.injEq]
        rw [hlast, zipWith_map_same, hc, hp]
        rfl
    obtain ⟨r0, hr0, hiff0⟩ := allSetLoop_range m buffer
      (hs.map (fun h => rollingHash h data w i)) hm hle
    rw [List.length_map] at hr0
    have hiff0' : r0 = true ↔ ∀ h ∈ hs,
        isBitSet buffer (rollingHash h data w i % m) = some true := by
      rw [hiff0]
      simp only [List.mem_map, forall_exists_index, and_imp, forall_apply_eq_imp_iff₂]
    cases r0 with
    | true =>
      refine ⟨true, hs.map (fun h => rollingHash h data w i), ?_,
        List.length_map _ _, fun _ => ?_, by simp⟩
      · simp only [substringLoop, hhash, hr0]
      · exact ⟨i, le_refl _, by omega, hiff0'.mp rfl, fun q1 h1 h2 => by omega, rfl⟩
    | false =>
      have hi : i < data.length := by omega
      have hnot : ¬ ∀ h ∈ hs, isBitSet buffer (rollingHash h data w i % m) = some true := by
        intro hall
        have := hiff0'.mpr hall
        simp at this
      obtain ⟨r, lastHash1, h1, hlen1, htrue, hfalse⟩ :=
        ih (i + 1) (hs.map (fun h => rollingHash h data w i))
          (data[i] % 256) (by omega) (List.length_map _ _)
          (Or.inr ⟨i, rfl, rfl, by rw [List.getD_eq_getElem _ _ hi]⟩)
      refine ⟨r, lastHash1, ?_, hlen1, ?_, ?_⟩
      · simp only [substringLoop, hhash, hr0, List.get?_eq_get hi, List.get_eq_getElem]
        exact h1
      · intro hrt
        obtain ⟨q, hq1, hq2, hq3, hq4, hq5⟩ := htrue hrt
        refine ⟨q, by omega, hq2, hq3, ?_, hq5⟩
        intro q1 h1 h2
        by_cases hqi : q1 = i
        · rw [hqi]; exact hnot
        · exact hq4 q1 (by omega) h2
      · intro hrf
        obtain ⟨hq1, hq2⟩ := hfalse hrf
        refine ⟨?_, fun _ => ?_⟩
        · intro q h1 h2
          by_cases hqi : q = i
          · rw [hqi]; exact hnot
          · exact hq1 q (by omega) h2
        · by_cases hrem : 0 < remaining
          · exact hq2 hrem
          · have h0 : remaining = 0 := by omega
            subst h0
            simp only [substringLoop, Option.some.injEq, Prod.mk.injEq] at h1
            rw [← h1.2]
            have : count - 1 = i := by omega
            rw [this]

theorem substringExists_contract (f : BloomFilter) (hf : f.WF) (hm : 0 < f.bitBufferSize)
    (data : List Nat) (n w : Int) (hw : 1 ≤ w) (hwn : w ≤ n) (hn : n ≤ data.length)
    (hint : n < 2 ^ 31) :
    ∃ r f1, BloomFilter.substringExists f data n w = some (r, f1) ∧
      f1 = { f with lastHash := f1.lastHash } ∧
      (r = true → ∃ q : Nat, (q : Int) ≤ n - w ∧
        (∀ h ∈ f.hashFunctions,
          isBitSet f.buffer (rollingHash h data w q % f.bitBufferSize) = some true) ∧
        (∀ q1, q1 < q → ¬ ∀ h ∈ f.hashFunctions,
          isBitSet f.buffer (rollingHash h data w q1 % f.bitBufferSize) = some true) ∧
        f1.lastHash = f.hashFunctions.map (fun h => rollingHash h data w q)) ∧
      (r = false →
        (∀ q : Nat, (q : Int) ≤ n - w → ¬ ∀ h ∈ f.hashFunctions,
          isBitSet f.buffer (rollingHash h data w q % f.bitBufferSize) = some true) ∧
        f1.lastHash =
          f.hashFunctions.map (fun h => rollingHash h data w (n - w).toNat)) := by
  obtain ⟨r, lastHash1, h1, _, htrue, hfalse⟩ :=
    substringLoop_contract f.hashFunctions f.bitBufferSize f.buffer data w
      (n - w + 1).toNat hm hf.bits_le hw (by omega)
      (n - w + 1).toNat 0 f.lastHash 0 (by omega) hf.2.2.1 (Or.inl rfl)
  refine ⟨r, { f with lastHash := lastHash1 }, ?_, rfl, ?_, ?_⟩
  · simp only [BloomFilter.substringExists, scanBound_eq n w (by omega) (by omega), h1]
  · intro hrt
    obtain ⟨q, _, hq2, hq3, hq4, hq5⟩ := htrue hrt
    exact ⟨q, by omega, hq3, fun q1 h2 => hq4 q1 (Nat.zero_le _) h2, hq5⟩
  · intro hrf
    obtain ⟨hq1, hq2⟩ := hfalse hrf
    refine ⟨fun q hq => hq1 q (Nat.zero_le _) (by omega), ?_⟩
    have := hq2 (by omega)
    have hc : (n - w + 1).toNat - 1 = (n - w).toNat := by omega
    rw [hc] at this
    exact this

/-! ## The scan and the scratch array on entry -/

theorem getHashesLoop_first_indep (input : List Nat) (len : Int) (c : Nat)
    (hs : List HashFunction) (a b : List Nat) (ha : a.length = hs.length)
    (hb : b.length = hs.length) :
    getHashesLoop input len none c hs 0 a = getHashesLoop input len none c hs 0 b := by
  by_cases hr : Readable input len
  · rw [getHashesLoop_first _ _ _ hr hs 0 a (by omega),
      getHashesLoop_first _ _ _ hr hs 0 b (by omega)]
    simp
  · cases hs with
    | nil =>
      simp only [List.length_nil, List.length_eq_zero] at ha hb
      rw [ha, hb]
    | cons h hs =>
      have hwin : window input len = none := by
        unfold window
        exact if_neg hr
      simp [getHashesLoop, HashFunction.call, hwin]

theorem substringLoop_indep (hs : List HashFunction) (m : Nat) (buffer data : List Nat)
    (w : Int) (remaining : Nat) (a b : List Nat) (c : Nat) (ha : a.length = hs.length)
    (hb : b.length = hs.length) :
    (substringLoop hs m buffer data w remaining 0 a c).map Prod.fst =
      (substringLoop hs m buffer data w remaining 0 b c).map Prod.fst := by
  cases remaining with
  | zero => rfl
  | succ remaining =>
    simp only [substringLoop, getHashesForCharCodes, if_true,
      getHashesLoop_first_indep _ _ _ hs a b ha hb]

theorem substringExists_fst (f : BloomFilter) (data : List Nat) (n w : Int) :
    (BloomFilter.substringExists f data n w).map Prod.fst =
      (substringLoop f.hashFunctions f.bitBufferSize f.buffer data w
        (scanBound n w).toNat 0 f.lastHash 0).map Prod.fst := by
  unfold BloomFilter.substringExists
  cases substringLoop f.hashFunctions f.bitBufferSize f.buffer data w
      (scanBound n w).toNat 0 f.lastHash 0 with
  | none => rfl
  | some x => rfl

theorem substringExists_frame (f f1 : BloomFilter) (data : List Nat) (n w : Int) (r : Bool)
    (h : BloomFilter.substringExists f data n w = some (r, f1)) :
    f1 = { f with lastHash := f1.lastHash } := by
  unfold BloomFilter.substringExists at h
  split at h
  · simp at h
  · simp only [Option.some.injEq, Prod.mk.injEq] at h
    rw [← h.2]

theorem runQueries_frame :
    ∀ (qs : List Query) (f f1 : BloomFilter), runQueries f qs = some f1 →
      f1 = { f with lastHash := f1.lastHash } := by
  intro qs
  induction qs with
  | nil =>
    intro f f1 h
    simp only [runQueries, Option.some.injEq] at h
    rw [← h]
  | cons q qs ih =>
    intro f f1 h
    simp only [runQueries] at h
    split at h
    · simp at h
    · rename_i r f2 hq
      have h2 := ih f2 f1 h
      have hf2 : f2 = { f with lastHash := f2.lastHash } := by
        cases q with
        | existsQ input len =>
          simp only [runQuery] at hq
          split at hq
          · simp at hq
          · simp only [Option.some.injEq, Prod.mk.injEq] at hq
            rw [← hq.2]
        | substringQ data n w =>
          exact substringExists_frame f f2 data n w r hq
      rw [h2, hf2]

/-! ## A filter whose buffer is all zero -/

theorem exists_zero_buffer (f : BloomFilter) (hf : f.WF) (hm : 0 < f.bitBufferSize)
    (hk : 0 < f.hashFunctions.length)
    (hzero : f.buffer = List.replicate f.byteBufferSize 0)
    (v : List Nat) (len : Int) (hr : Readable v len) :
    BloomFilter.exists f v len = some false := by
  obtain ⟨r, hr1, hiff⟩ := exists_spec f v len hf hm hr
  have hfalse : r = false := by
    cases r with
    | false => rfl
    | true =>
      have hall := hiff.mp rfl
      obtain ⟨h, hh⟩ := List.exists_mem_of_length_pos hk
      have hbit := hall h hh
      have hloc : h.value (v.take len.toNat) % f.bitBufferSize / 8 < f.byteBufferSize := by
        have := div_lt_of_lt_bits _ _ _ (Nat.mod_lt (h.value (v.take len.toNat)) hm)
          hf.bits_le
        rw [hf.1] at this
        exact this
      rw [hzero, replicate_zero_bit _ _ hloc] at hbit
      simp at hbit
  rw [hr1, hfalse]

theorem getD_ne_zero (sz : List Nat) (i : Nat) (h : sz.getD i 0 ≠ 0) :
    ∃ b, sz.get? i = some b ∧ b ≠ 0 := by
  rw [List.getD_eq_getElem?_getD] at h
  simp only [List.get?_eq_getElem?]
  cases hget : sz[i]? with
  | none => rw [hget] at h; simp at h
  | some b => rw [hget] at h; exact ⟨b, rfl, by simpa using h⟩

/-! ## The length of the scratch array -/

theorem getHashesLoop_length (input : List Nat) (len : Int) (last : Option (List Nat))
    (c : Nat) :
    ∀ (hs : List HashFunction) (i : Nat) (newHashes l : List Nat),
      getHashesLoop input len last c hs i newHashes = some l →
      l.length = newHashes.length := by
  intro hs
  induction hs with
  | nil =>
    intro i newHashes l h
    simp only [getHashesLoop, Option.some.injEq] at h
    rw [h]
  | cons h hs ih =>
    intro i newHashes l hl
    cases last with
    | none =>
      simp only [getHashesLoop] at hl
      split at hl
      · simp at hl
      · split at hl
        · rw [ih _ _ _ hl, List.length_set]
        · simp at hl
    | some lastHashes =>
      simp only [getHashesLoop] at hl
      split at hl
      · simp at hl
      · split at hl
        · simp at hl
        · split at hl
          · rw [ih _ _ _ hl, List.length_set]
          · simp at hl

theorem substringLoop_length (hs : List HashFunction) (m : Nat) (buffer data : List Nat)
    (w : Int) :
    ∀ (remaining i : Nat) (lastHash : List Nat) (c : Nat) (r : Bool) (l : List Nat),
      substringLoop hs m buffer data w remaining i lastHash c = some (r, l) →
      l.length = lastHash.length := by
  intro remaining
  induction remaining with
  | zero =>
    intro i lastHash c r l h
    simp only [substringLoop, Option.some.injEq, Prod.mk.injEq] at h
    rw [← h.2]
  | succ remaining ih =>
    intro i lastHash c r l h
    simp only [substringLoop] at h
    split at h
    · simp at h
    · rename_i lastHash1 hget
      have hlen1 : lastHash1.length = lastHash.length :=
        getHashesLoop_length _ _ _ _ _ _ _ _ hget
      split at h
      · simp at h
      · simp only [Option.some.injEq, Prod.mk.injEq] at h
        rw [← h.2, hlen1]
      · split at h
        · simp at h
        · rw [ih _ _ _ _ _ h, hlen1]

theorem runQueries_length :
    ∀ (qs : List Query) (f f1 : BloomFilter), runQueries f qs = some f1 →
      f1.lastHash.length = f.lastHash.length := by
  intro qs
  induction qs with
  | nil =>
    intro f f1 h
    simp only [runQueries, Option.some.injEq] at h
    rw [← h]
  | cons q qs ih =>
    intro f f1 h
    simp only [runQueries] at h
    split at h
    · simp at h
    · rename_i r f2 hq
      rw [ih f2 f1 h]
      cases q with
      | existsQ input len =>
        simp only [runQuery] at hq
        split at hq
        · simp at hq
        · simp only [Option.some.injEq, Prod.mk.injEq] at hq
          rw [← hq.2]
      | substringQ data n w =>
        simp only [runQuery, BloomFilter.substringExists] at hq
        split at hq
        · simp at hq
        · rename_i r1 l1 hloop
          simp only [Option.some.injEq, Prod.mk.injEq] at hq
          rw [← hq.2]
          exact substringLoop_length _ _ _ _ _ _ _ _ _ _ _ hloop

/-! ## Properties of the specification -/

/-- C1, no false negatives: on a filter with `bitBufferSize > 0`, every sequence
of `add` calls on byte sequences that contains `add(v, len)`, with any other
values added before or after it, runs to completion, and `exists(v, len)` called
afterwards returns true. -/
theorem no_false_negatives (f : BloomFilter) (hf : f.WF) (hm : 0 < f.bitBufferSize)
    (before after : List (List Nat × Int)) (v : List Nat) (len : Int)
    (hother : ∀ a ∈ before ++ after, Readable a.1 a.2) (hv : Readable v len) :
    ∃ f1, addAll f (before ++ (v, len) :: after) = some f1 ∧
      BloomFilter.exists f1 v len = some true := by
  obtain ⟨f1, h1, _, _, _, h2⟩ := addAll_exists f hf hm before after v len hother hv
  exact ⟨f1, h1, h2⟩

theorem no_false_negatives_witness :
    scenario.WF ∧ 0 < scenario.bitBufferSize ∧
      (∀ a ∈ [(([98, 101, 116, 97] : List Nat), (4 : Int))] ++ [(xalphay, 7)],
        Readable a.1 a.2) ∧
      Readable alpha 5 ∧
      ∃ f1, addAll scenario ([([98, 101, 116, 97], 4)] ++ (alpha, 5) :: [(xalphay, 7)])
          = some f1 ∧
        BloomFilter.exists f1 alpha 5 = some true :=
  ⟨by decide, by decide, by decide, by decide,
    no_false_negatives scenario (by decide) (by decide) [([98, 101, 116, 97], 4)]
      [(xalphay, 7)] alpha 5 (by decide) (by decide)⟩

/-- C2, substring scan consistency: for hash functions whose incremental form
agrees with the full form on the windows of `data`, and for `1 <= w <= n` with
`n`, an `int`, bytes of `data` readable, `substringExists(data, n, w)` returns,
and it returns true if and only if there is a start index `i` with
`0 <= i <= n - w` such that `exists(data + i, w)` returns true. -/
theorem substring_scan_consistency (f : BloomFilter) (hf : f.WF)
    (hm : 0 < f.bitBufferSize) (data : List Nat) (n w : Int) (hw : 1 ≤ w) (hwn : w ≤ n)
    (hn : n ≤ data.length) (hint : n < 2 ^ 31)
    (hcons : RollingConsistent f.hashFunctions data n w) :
    ∃ r f1, BloomFilter.substringExists f data n w = some (r, f1) ∧
      (r = true ↔ ∃ i : Nat, (i : Int) ≤ n - w ∧
        BloomFilter.exists f (data.drop i) w = some true) := by
  obtain ⟨r, f1, h1, _, _, _, h2⟩ :=
    substringExists_spec f hf hm data n w hw hwn hn hint hcons
  exact ⟨r, f1, h1, h2⟩

theorem substring_scan_consistency_witness :
    scenarioAlpha.WF ∧ 0 < scenarioAlpha.bitBufferSize ∧ (1 : Int) ≤ 5 ∧ (5 : Int) ≤ 7 ∧
      (7 : Int) ≤ xalphay.length ∧ (7 : Int) < 2 ^ 31 ∧
      RollingConsistent scenarioAlpha.hashFunctions xalphay 7 5 ∧
      ∃ r f1, BloomFilter.substringExists scenarioAlpha xalphay 7 5 = some (r, f1) ∧
        (r = true ↔ ∃ i : Nat, (i : Int) ≤ 7 - 5 ∧
          BloomFilter.exists scenarioAlpha (xalphay.drop i) 5 = some true) :=
  ⟨by decide, by decide, by decide, by decide, by decide, by decide, by decide,
    substring_scan_consistency scenarioAlpha (by decide) (by decide) xalphay 7 5
      (by decide) (by decide) (by decide) (by decide) (by decide)⟩

/-- C3, a window that was added is found by the scan: for hash functions whose
incremental form agrees with the full form on the windows of `data`, if a byte
sequence `s` of length `w >= 1` is added with `add(s, w)`, among any other
values, and `s` occurs as the window of `data` at some `i <= n - w`, with `n`
an `int`, then `substringExists(data, n, w)` returns true. -/
theorem added_window_found (f : BloomFilter) (hf : f.WF) (hm : 0 < f.bitBufferSize)
    (before after : List (List Nat × Int)) (s : List Nat) (w : Int) (data : List Nat)
    (n : Int) (hother : ∀ a ∈ before ++ after, Readable a.1 a.2) (hs : Readable s w)
    (hw : 1 ≤ w) (hwn : w ≤ n) (hn : n ≤ data.length) (hint : n < 2 ^ 31)
    (hcons : RollingConsistent f.hashFunctions data n w)
    (i : Nat) (hi : (i : Int) ≤ n - w)
    (hocc : (data.drop i).take w.toNat = s.take w.toNat) :
    ∃ f1, addAll f (before ++ (s, w) :: after) = some f1 ∧
      ∃ f2, BloomFilter.substringExists f1 data n w = some (true, f2) := by
  obtain ⟨f1, h1, w1, e1, e2, hex⟩ := addAll_exists f hf hm before after s w hother hs
  have hm1 : 0 < f1.bitBufferSize := by rw [e1]; exact hm
  obtain ⟨r, f2, h2, _, _, _, hiff⟩ :=
    substringExists_spec f1 w1 hm1 data n w hw hwn hn hint (by rw [e2]; exact hcons)
  have hr : r = true := by
    rw [hiff]
    refine ⟨i, hi, ?_⟩
    rw [exists_true_iff f1 _ w w1 hm1 (readable_drop data n w i hw hn hi), hocc,
      ← exists_true_iff f1 s w w1 hm1 hs]
    exact hex
  subst hr
  exact ⟨f1, h1, f2, h2⟩

theorem added_window_found_witness :
    scenario.WF ∧ 0 < scenario.bitBufferSize ∧
      (∀ a ∈ ([] : List (List Nat × Int)) ++ [], Readable a.1 a.2) ∧ Readable alpha 5 ∧
      (1 : Int) ≤ 5 ∧ (5 : Int) ≤ 7 ∧ (7 : Int) ≤ xalphay.length ∧ (7 : Int) < 2 ^ 31 ∧
      RollingConsistent scenario.hashFunctions xalphay 7 5 ∧ ((1 : Nat) : Int) ≤ 7 - 5 ∧
      (xalphay.drop 1).take (5 : Int).toNat = alpha.take (5 : Int).toNat ∧
      ∃ f1, addAll scenario ([] ++ (alpha, 5) :: []) = some f1 ∧
        ∃ f2, BloomFilter.substringExists f1 xalphay 7 5 = some (true, f2) :=
  ⟨by decide, by decide, by decide, by decide, by decide, by decide, by decide, by decide,
    by decide, by decide, by decide,
    added_window_found scenario (by decide) (by decide) [] [] alpha 5 xalphay 7
      (by decide) (by decide) (by decide) (by decide) (by decide) (by decide) (by decide) 1
      (by decide) (by decide)⟩

/-- C4, degenerate window: for every filter, every data length `n >= 0` and every
window length `w > n`, an `int`, `substringExists(data, n, w)` returns false;
the filter is unchanged, no window is examined and no hash function is
called. -/
theorem degenerate_window (f : BloomFilter) (data : List Nat) (n w : Int) (hn : 0 ≤ n)
    (hw : n < w) (hint : w < 2 ^ 31) :
    BloomFilter.substringExists f data n w = some (false, f) := by
  have h0 : (scanBound n w).toNat = 0 := by
    rw [scanBound_eq n w (by omega) (by omega)]
    omega
  simp only [BloomFilter.substringExists, h0, substringLoop]

theorem degenerate_window_witness :
    (0 : Int) ≤ 7 ∧ (7 : Int) < 8 ∧ (8 : Int) < 2 ^ 31 ∧
      BloomFilter.substringExists scenarioAlpha xalphay 7 8 = some (false, scenarioAlpha) :=
  ⟨by decide, by decide, by decide,
    degenerate_window scenarioAlpha xalphay 7 8 (by decide) (by decide) (by decide)⟩

/-- C5, postcondition of `add`: for `bitBufferSize > 0` the call on a byte
sequence returns, a bit index `b < bitBufferSize` is set afterwards exactly when
it was set before or `b = hashFunctions[j](input, len) % bitBufferSize` for some
`j < k`, and `byteBufferSize` and `bitBufferSize` are unchanged. -/
theorem add_postcondition (f : BloomFilter) (hf : f.WF) (hm : 0 < f.bitBufferSize)
    (input : List Nat) (len : Int) (hr : Readable input len) :
    ∃ f1, BloomFilter.add f input len = some f1 ∧
      f1.byteBufferSize = f.byteBufferSize ∧ f1.bitBufferSize = f.bitBufferSize ∧
      ∀ b, b < f.bitBufferSize →
        (isBitSet f1.buffer b = some true ↔
          (isBitSet f.buffer b = some true ∨
            ∃ j, ∃ hj : j < f.numHashFunctions,
              hashIndex (f.hashFunctions.get ⟨j, hj⟩) input len f.bitBufferSize
                = some b)) := by
  obtain ⟨buffer1, h1, _, _, hbits⟩ := add_spec f input len hf hm hr
  refine ⟨_, h1, rfl, rfl, ?_⟩
  intro b hb
  rw [hbits b (div_lt_of_lt_bits _ _ _ hb hf.bits_le)]
  apply or_congr Iff.rfl
  constructor
  · rintro ⟨h, hh, e⟩
    obtain ⟨j, hj, rfl⟩ := List.getElem_of_mem hh
    exact ⟨j, hj, e⟩
  · rintro ⟨j, hj, e⟩
    exact ⟨_, List.get_mem _ j hj, e⟩

theorem add_postcondition_witness :
    scenario.WF ∧ 0 < scenario.bitBufferSize ∧ Readable alpha 5 ∧
      ∃ f1, BloomFilter.add scenario alpha 5 = some f1 ∧
        f1.byteBufferSize = scenario.byteBufferSize ∧
        f1.bitBufferSize = scenario.bitBufferSize ∧
        ∀ b, b < scenario.bitBufferSize →
          (isBitSet f1.buffer b = some true ↔
            (isBitSet scenario.buffer b = some true ∨
              ∃ j, ∃ hj : j < scenario.numHashFunctions,
                hashIndex (scenario.hashFunctions.get ⟨j, hj⟩) alpha 5
                  scenario.bitBufferSize = some b)) :=
  ⟨by decide, by decide, by decide,
    add_postcondition scenario (by decide) (by decide) alpha 5 (by decide)⟩

/-- C6, `exists` is the all-bits-set test: for `bitBufferSize > 0` the call on a
byte sequence returns, and it returns true exactly when for every `j < k` the
bit at index `hashFunctions[j](input, len) % bitBufferSize` is set in the
buffer. -/
theorem exists_all_bits_set (f : BloomFilter) (hf : f.WF) (hm : 0 < f.bitBufferSize)
    (input : List Nat) (len : Int) (hr : Readable input len) :
    ∃ r, BloomFilter.exists f input len = some r ∧
      (r = true ↔ ∀ j, ∀ hj : j < f.numHashFunctions,
        ∃ loc, hashIndex (f.hashFunctions.get ⟨j, hj⟩) input len f.bitBufferSize
            = some loc ∧
          isBitSet f.buffer loc = some true) := by
  obtain ⟨r, hr1, hiff⟩ := exists_spec f input len hf hm hr
  refine ⟨r, hr1, ?_⟩
  rw [hiff]
  constructor
  · intro h j hj
    exact ⟨_, hashIndex_eq _ input len _ hr hm, h _ (List.get_mem _ j hj)⟩
  · intro h x hx
    obtain ⟨j, hj, rfl⟩ := List.getElem_of_mem hx
    obtain ⟨loc, h1, h2⟩ := h j hj
    rw [List.get_eq_getElem, hashIndex_eq _ input len _ hr hm] at h1
    simp only [Option.some.injEq] at h1
    rw [h1]
    exact h2

theorem exists_all_bits_set_witness :
    scenario.WF ∧ 0 < scenario.bitBufferSize ∧ Readable alpha 5 ∧
      ∃ r, BloomFilter.exists scenario alpha 5 = some r ∧
        (r = true ↔ ∀ j, ∀ hj : j < scenario.numHashFunctions,
          ∃ loc, hashIndex (scenario.hashFunctions.get ⟨j, hj⟩) alpha 5
              scenario.bitBufferSize = some loc ∧
            isBitSet scenario.buffer loc = some true) :=
  ⟨by decide, by decide, by decide,
    exists_all_bits_set scenario (by decide) (by decide) alpha 5 (by decide)⟩

/-- C7, idempotence of `add`: for every filter state with `bitBufferSize > 0` and
every byte sequence `v`, both calls of `add(v)` followed by `add(v)` return, and
the byte buffer after the second is identical to the buffer after the first. -/
theorem add_idempotent (f : BloomFilter) (hf : f.WF) (hm : 0 < f.bitBufferSize)
    (v : List Nat) (len : Int) (hr : Readable v len) :
    ∃ f1 f2, BloomFilter.add f v len = some f1 ∧ BloomFilter.add f1 v len = some f2 ∧
      f2.buffer = f1.buffer := by
  obtain ⟨buffer1, h1, hlen1, hb1, hbits1⟩ := add_spec f v len hf hm hr
  obtain ⟨w1, e1, _, e3, _⟩ := add_wf f _ v len hf hm hr h1
  obtain ⟨buffer2, h2, hlen2, hb2, hbits2⟩ :=
    add_spec _ v len w1 (by rw [e1]; exact hm) hr
  refine ⟨_, _, h1, h2, ?_⟩
  apply buffer_ext _ _ hlen2 hb2 hb1
  intro b hb
  rw [hlen2] at hb
  rw [hbits2 b hb]
  simp only at hb ⊢
  rw [hlen1] at hb
  rw [hbits1 b hb]
  tauto

theorem add_idempotent_witness :
    scenario.WF ∧ 0 < scenario.bitBufferSize ∧ Readable alpha 5 ∧
      ∃ f1 f2, BloomFilter.add scenario alpha 5 = some f1 ∧
        BloomFilter.add f1 alpha 5 = some f2 ∧ f2.buffer = f1.buffer :=
  ⟨by decide, by decide, by decide,
    add_idempotent scenario (by decide) (by decide) alpha 5 (by decide)⟩

/-- C8, import round-trip: for a filter built by sized construction followed by
any sequence of `add` calls, import construction from its byte buffer and its
`byteBufferSize` with the same hash functions succeeds and yields a filter
with the same byte buffer and the same `bitBufferSize`, on which `exists`
returns the same value for every input. -/
theorem import_round_trip (bitsPerElement estimatedNumElements : Nat)
    (hs : List HashFunction) (adds : List (List Nat × Int)) (f1 : BloomFilter)
    (h1 : addAll (BloomFilter.sized bitsPerElement estimatedNumElements hs) adds = some f1) :
    ∃ f2, BloomFilter.imported f1.buffer (toInt f1.byteBufferSize) hs = some f2 ∧
      f2.buffer = f1.buffer ∧ f2.byteBufferSize = f1.byteBufferSize ∧
      f2.bitBufferSize = f1.bitBufferSize ∧
      ∀ (v : List Nat) (len : Int),
        BloomFilter.exists f2 v len = BloomFilter.exists f1 v len := by
  obtain ⟨w1, _, e2, e3⟩ :=
    addAll_keeps adds _ f1 (sized_wf bitsPerElement estimatedNumElements hs) h1
  have hle : f1.byteBufferSize ≤ 2 ^ 29 := by
    rw [e2]; exact sized_byteBufferSize_le _ _ _
  have himp := imported_of_wf f1 w1 hle
  have e3' : f1.hashFunctions = hs := e3
  rw [e3'] at himp
  exact ⟨_, himp, rfl, rfl, rfl, fun v len => by simp [BloomFilter.exists, e3']⟩

theorem import_round_trip_witness :
    addAll (BloomFilter.sized 10 10 [sumHash, sumHash3]) [(alpha, 5)] = some scenarioAlpha ∧
      ∃ f2, BloomFilter.imported scenarioAlpha.buffer (toInt scenarioAlpha.byteBufferSize)
          [sumHash, sumHash3] = some f2 ∧
        f2.buffer = scenarioAlpha.buffer ∧
        f2.byteBufferSize = scenarioAlpha.byteBufferSize ∧
        f2.bitBufferSize = scenarioAlpha.bitBufferSize ∧
        ∀ (v : List Nat) (len : Int),
          BloomFilter.exists f2 v len = BloomFilter.exists scenarioAlpha v len :=
  ⟨rfl, import_round_trip 10 10 [sumHash, sumHash3] [(alpha, 5)] scenarioAlpha rfl⟩

/-- C9, clear resets membership: for every filter with `k >= 1` and
`bitBufferSize > 0`, whatever was added before, `clear()` returns a filter in
which every byte of the buffer is zero and the sizes are unchanged, and on
which `exists(v)` returns false for every byte sequence `v`. -/
theorem clear_resets_membership (f : BloomFilter) (hf : f.WF) (hm : 0 < f.bitBufferSize)
    (hk : 1 ≤ f.numHashFunctions) :
    ∃ f1, BloomFilter.clear f = some f1 ∧ (∀ x ∈ f1.buffer, x = 0) ∧
      f1.buffer.length = f.buffer.length ∧ f1.byteBufferSize = f.byteBufferSize ∧
      f1.bitBufferSize = f.bitBufferSize ∧
      ∀ (v : List Nat) (len : Int), Readable v len →
        BloomFilter.exists f1 v len = some false := by
  have w1 := hf.1
  have hbuf : List.replicate f.byteBufferSize 0 ++ f.buffer.drop f.byteBufferSize =
      List.replicate f.byteBufferSize 0 := by
    rw [← w1, List.drop_length, List.append_nil]
  have hclear : BloomFilter.clear f =
      some { f with buffer := List.replicate f.byteBufferSize 0 } := by
    unfold BloomFilter.clear
    rw [if_neg (by omega), hbuf]
  have hwf : ({ f with buffer := List.replicate f.byteBufferSize 0 } : BloomFilter).WF := by
    obtain ⟨_, w2, w3, _⟩ := hf
    refine ⟨by simp, w2, w3, ?_⟩
    intro x hx
    simp only [List.mem_replicate] at hx
    omega
  refine ⟨_, hclear, ?_, by simp [w1], rfl, rfl, ?_⟩
  · intro x hx
    exact (List.mem_replicate.mp hx).2
  · intro v len hr
    obtain ⟨r, hr1, hiff⟩ := exists_spec _ v len hwf hm hr
    have hfalse : r = false := by
      cases r with
      | false => rfl
      | true =>
        have hall := hiff.mp rfl
        unfold BloomFilter.numHashFunctions at hk
        obtain ⟨h, hh⟩ := List.exists_mem_of_length_pos (by omega : 0 < f.hashFunctions.length)
        have hbit := hall h hh
        have hloc : h.value (v.take len.toNat) % f.bitBufferSize / 8 < f.byteBufferSize := by
          have := div_lt_of_lt_bits _ _ _ (Nat.mod_lt (h.value (v.take len.toNat)) hm)
            hf.bits_le
          omega
        simp only [replicate_zero_bit _ _ hloc] at hbit
        simp at hbit
    rw [hr1, hfalse]

theorem clear_resets_membership_witness :
    scenarioAlpha.WF ∧ 0 < scenarioAlpha.bitBufferSize ∧
      1 ≤ scenarioAlpha.numHashFunctions ∧
      ∃ f1, BloomFilter.clear scenarioAlpha = some f1 ∧ (∀ x ∈ f1.buffer, x = 0) ∧
        f1.buffer.length = scenarioAlpha.buffer.length ∧
        f1.byteBufferSize = scenarioAlpha.byteBufferSize ∧
        f1.bitBufferSize = scenarioAlpha.bitBufferSize ∧
        ∀ (v : List Nat) (len : Int), Readable v len →
          BloomFilter.exists f1 v len = some false :=
  ⟨by decide, by decide, by decide,
    clear_resets_membership scenarioAlpha (by decide) (by decide) (by decide)⟩

/-- C10, the sized constructor at 10 bits for each of 429496729 elements: the
product does not wrap, `byteBufferSize` is `2 ^ 29`, and `byteBufferSize * 8`
wraps to a `bitBufferSize` of zero, so that `add` has no defined result. -/
theorem sized_bitBufferSize_zero :
    10 * 429496729 < 2 ^ 32 ∧
      (BloomFilter.sized 10 429496729 [sumHash]).byteBufferSize = 2 ^ 29 ∧
      (BloomFilter.sized 10 429496729 [sumHash]).bitBufferSize = 0 ∧
      BloomFilter.add (BloomFilter.sized 10 429496729 [sumHash]) alpha 5 = none :=
  ⟨by decide, by decide, by decide, rfl⟩

/-- C11, bit indices are always in range: for a filter with
`bitBufferSize = 8 * byteBufferSize > 0`, every index `hash % bitBufferSize`
that `add`, `exists` and `substringExists` compute is below `bitBufferSize` and
its byte position `index / 8` is below `byteBufferSize`; `setBit` and `isBitSet`
at such an index never take the out-of-range branch, and the three methods
return on readable inputs, the data length `n` of a scan being an `int`. -/
theorem bit_indices_in_range (f : BloomFilter) (hf : f.WF)
    (hbits : f.bitBufferSize = 8 * f.byteBufferSize) (hm : 0 < f.bitBufferSize) :
    (∀ (h : HashFunction) (input : List Nat) (len : Int) (loc : Nat),
      hashIndex h input len f.bitBufferSize = some loc →
        loc < f.bitBufferSize ∧ loc / 8 < f.byteBufferSize) ∧
    (∀ hash loc : Nat, reduce hash f.bitBufferSize = some loc →
        loc < f.bitBufferSize ∧ loc / 8 < f.byteBufferSize) ∧
    (∀ (buffer : List Nat) (loc : Nat), buffer.length = f.byteBufferSize →
      loc < f.bitBufferSize →
        (∃ buffer1, setBit buffer loc = some buffer1) ∧ ∃ r, isBitSet buffer loc = some r) ∧
    (∀ (input : List Nat) (len : Int), Readable input len →
      (∃ f1, BloomFilter.add f input len = some f1) ∧
        ∃ r, BloomFilter.exists f input len = some r) ∧
    (∀ (data : List Nat) (n w : Int), 1 ≤ w → w ≤ n → n ≤ data.length → n < 2 ^ 31 →
      ∃ r f1, BloomFilter.substringExists f data n w = some (r, f1)) := by
  have hdiv : ∀ loc, loc < f.bitBufferSize → loc / 8 < f.byteBufferSize := by
    intro loc hloc
    omega
  refine ⟨?_, ?_, ?_, ?_, ?_⟩
  · intro h input len loc hloc
    have := hashIndex_lt h input len _ loc hloc
    exact ⟨this, hdiv loc this⟩
  · intro hash loc hloc
    rw [reduce_pos _ _ hm] at hloc
    simp only [Option.some.injEq] at hloc
    have : loc < f.bitBufferSize := by rw [← hloc]; exact Nat.mod_lt _ hm
    exact ⟨this, hdiv loc this⟩
  · intro buffer loc hlen hloc
    have hb : loc / 8 < buffer.length := by rw [hlen]; exact hdiv loc hloc
    exact ⟨⟨_, setBit_eq buffer loc hb⟩, ⟨_, isBitSet_eq buffer loc hb⟩⟩
  · intro input len hr
    obtain ⟨buffer1, h1, _⟩ := add_spec f input len hf hm hr
    obtain ⟨r, h2, _⟩ := exists_spec f input len hf hm hr
    exact ⟨⟨_, h1⟩, ⟨r, h2⟩⟩
  · intro data n w hw hwn hn hint
    obtain ⟨r, f1, h1, _⟩ := substringExists_contract f hf hm data n w hw hwn hn hint
    exact ⟨r, f1, h1⟩

theorem bit_indices_in_range_witness :
    scenarioAlpha.WF ∧ scenarioAlpha.bitBufferSize = 8 * scenarioAlpha.byteBufferSize ∧
    0 < scenarioAlpha.bitBufferSize ∧
    ((∀ (h : HashFunction) (input : List Nat) (len : Int) (loc : Nat),
      hashIndex h input len scenarioAlpha.bitBufferSize = some loc →
        loc < scenarioAlpha.bitBufferSize ∧ loc / 8 < scenarioAlpha.byteBufferSize) ∧
    (∀ hash loc : Nat, reduce hash scenarioAlpha.bitBufferSize = some loc →
        loc < scenarioAlpha.bitBufferSize ∧ loc / 8 < scenarioAlpha.byteBufferSize) ∧
    (∀ (buffer : List Nat) (loc : Nat), buffer.length = scenarioAlpha.byteBufferSize →
      loc < scenarioAlpha.bitBufferSize →
        (∃ buffer1, setBit buffer loc = some buffer1) ∧ ∃ r, isBitSet buffer loc = some r) ∧
    (∀ (input : List Nat) (len : Int), Readable input len →
      (∃ f1, BloomFilter.add scenarioAlpha input len = some f1) ∧
        ∃ r, BloomFilter.exists scenarioAlpha input len = some r) ∧
    (∀ (data : List Nat) (n w : Int), 1 ≤ w → w ≤ n → n ≤ data.length → n < 2 ^ 31 →
      ∃ r f1, BloomFilter.substringExists scenarioAlpha data n w = some (r, f1))) :=
  ⟨by decide, by decide, by decide,
    bit_indices_in_range scenarioAlpha (by decide) (by decide) (by decide)⟩

/-- C12, bit buffer set and test: for every byte buffer and every index
`i < bitLength`, `setBit(i)` succeeds, afterwards `isBitSet(i)` returns true,
`isBitSet(j)` is unchanged for every `j != i` with `j < bitLength`, every byte
other than the one at `i / 8` is unchanged, and when bit `i` was already set the
buffer is unchanged. -/
theorem bit_buffer_set_test (buffer : List Nat) (hbytes : ∀ x ∈ buffer, x < 256)
    (i : Nat) (hi : i < 8 * buffer.length) :
    ∃ buffer1, setBit buffer i = some buffer1 ∧ buffer1.length = buffer.length ∧
      isBitSet buffer1 i = some true ∧
      (∀ j, j ≠ i → j < 8 * buffer.length → isBitSet buffer1 j = isBitSet buffer j) ∧
      (∀ p, p ≠ i / 8 → buffer1.get? p = buffer.get? p) ∧
      (isBitSet buffer i = some true → buffer1 = buffer) := by
  have hloc : i / 8 < buffer.length := by omega
  have hset := setBit_eq buffer i hloc
  have hlen := setBit_length buffer _ i hset
  refine ⟨_, hset, hlen, ?_, ?_, ?_, ?_⟩
  · exact (isBitSet_setBit buffer _ i i hset hloc).mpr (Or.inl rfl)
  · intro j hj hjlt
    have hjb : j / 8 < buffer.length := by omega
    apply isBitSet_eq_of_iff _ _ j (by rw [hlen]; exact hjb) hjb
    rw [isBitSet_setBit buffer _ i j hset hjb]
    constructor
    · rintro (h1 | h1)
      · exact absurd h1 hj
      · exact h1
    · intro h1; exact Or.inr h1
  · intro p hp
    exact setBit_get_other buffer _ i p hset hp
  · intro halready
    apply buffer_ext _ _ hlen (setBit_bytes buffer _ i hset hbytes) hbytes
    intro b hb
    rw [hlen] at hb
    rw [isBitSet_setBit buffer _ i b hset hb]
    constructor
    · rintro (h1 | h1)
      · rw [h1]; exact halready
      · exact h1
    · intro h1; exact Or.inr h1

theorem bit_buffer_set_test_witness :
    (∀ x ∈ scenarioAlpha.buffer, x < 256) ∧ 102 < 8 * scenarioAlpha.buffer.length ∧
    ∃ buffer1, setBit scenarioAlpha.buffer 102 = some buffer1 ∧
      buffer1.length = scenarioAlpha.buffer.length ∧
      isBitSet buffer1 102 = some true ∧
      (∀ j, j ≠ 102 → j < 8 * scenarioAlpha.buffer.length →
        isBitSet buffer1 j = isBitSet scenarioAlpha.buffer j) ∧
      (∀ p, p ≠ 102 / 8 → buffer1.get? p = scenarioAlpha.buffer.get? p) ∧
      (isBitSet scenarioAlpha.buffer 102 = some true → buffer1 = scenarioAlpha.buffer) :=
  ⟨by decide, by decide, bit_buffer_set_test scenarioAlpha.buffer (by decide) 102 (by decide)⟩

/-- C14, the string-terminated forms equal the explicit-length forms: for every
byte string `sz` whose first zero byte is at position `n`, `add(sz)` is
`add(sz, n)`, `exists(sz)` is `exists(sz, n)` and `substringExists(sz, w)` is
`substringExists(sz, n, w)` for every `w`: same result, same filter. The length
`n` is passed as an `int`, which is `n` itself below `2 ^ 31`. -/
theorem string_forms_delegate (f : BloomFilter) (sz : List Nat) (n : Nat)
    (hzero : sz.get? n = some 0) (hfirst : ∀ i < n, sz.getD i 0 ≠ 0) :
    BloomFilter.addSz f sz = BloomFilter.add f sz (toInt n) ∧
    BloomFilter.existsSz f sz = BloomFilter.exists f sz (toInt n) ∧
    (∀ w : Int,
      BloomFilter.substringExistsSz f sz w = BloomFilter.substringExists f sz (toInt n) w) ∧
    (n < 2 ^ 31 → toInt n = (n : Int)) := by
  have hlen : strlen sz = some n :=
    strlen_eq sz n hzero (fun i hi => getD_ne_zero sz i (hfirst i hi))
  refine ⟨?_, ?_, ?_, toInt_eq n⟩
  · simp only [BloomFilter.addSz, hlen]
  · simp only [BloomFilter.existsSz, hlen]
  · intro w
    simp only [BloomFilter.substringExistsSz, hlen]

theorem string_forms_delegate_witness :
    xalphay.get? 7 = some 0 ∧ (∀ i < 7, xalphay.getD i 0 ≠ 0) ∧
    (BloomFilter.addSz scenarioAlpha xalphay
      = BloomFilter.add scenarioAlpha xalphay (toInt 7) ∧
    BloomFilter.existsSz scenarioAlpha xalphay
      = BloomFilter.exists scenarioAlpha xalphay (toInt 7) ∧
    (∀ w : Int, BloomFilter.substringExistsSz scenarioAlpha xalphay w
      = BloomFilter.substringExists scenarioAlpha xalphay (toInt 7) w) ∧
    (7 < 2 ^ 31 → toInt 7 = ((7 : Nat) : Int))) :=
  ⟨by decide, by decide,
    string_forms_delegate scenarioAlpha xalphay 7 (by decide) (by decide)⟩

/-- C15, rolling-hash calling contract: for arbitrary hash functions and
`1 <= w <= n`, `n` an `int`, the scan returns; with `h_j(i)` the hash of window `i` under the
contract (`rollingHash`), it returns true at the first `i <= n - w` for which
all `k` bits `h_j(i) % bitBufferSize` are set, the scratch array then holding
`h_j(i)`, and false if there is none, the scratch array then holding the hashes
of the last window. -/
theorem rolling_hash_contract (f : BloomFilter) (hf : f.WF) (hm : 0 < f.bitBufferSize)
    (data : List Nat) (n w : Int) (hw : 1 ≤ w) (hwn : w ≤ n) (hn : n ≤ data.length)
    (hint : n < 2 ^ 31) :
    ∃ r f1, BloomFilter.substringExists f data n w = some (r, f1) ∧
      (r = true → ∃ i : Nat, (i : Int) ≤ n - w ∧
        (∀ j, ∀ hj : j < f.numHashFunctions,
          isBitSet f.buffer
            (rollingHash (f.hashFunctions.get ⟨j, hj⟩) data w i % f.bitBufferSize)
            = some true) ∧
        (∀ i1, i1 < i → ¬ ∀ j, ∀ hj : j < f.numHashFunctions,
          isBitSet f.buffer
            (rollingHash (f.hashFunctions.get ⟨j, hj⟩) data w i1 % f.bitBufferSize)
            = some true) ∧
        f1.lastHash = f.hashFunctions.map (fun h => rollingHash h data w i)) ∧
      (r = false →
        (∀ i : Nat, (i : Int) ≤ n - w → ¬ ∀ j, ∀ hj : j < f.numHashFunctions,
          isBitSet f.buffer
            (rollingHash (f.hashFunctions.get ⟨j, hj⟩) data w i % f.bitBufferSize)
            = some true) ∧
        f1.lastHash =
          f.hashFunctions.map (fun h => rollingHash h data w (n - w).toNat)) := by
  have hconv : ∀ i : Nat,
      (∀ j, ∀ hj : j < f.numHashFunctions,
        isBitSet f.buffer
          (rollingHash (f.hashFunctions.get ⟨j, hj⟩) data w i % f.bitBufferSize)
          = some true) ↔
      ∀ h ∈ f.hashFunctions,
        isBitSet f.buffer (rollingHash h data w i % f.bitBufferSize) = some true := by
    intro i
    constructor
    · intro h x hx
      obtain ⟨j, hj, rfl⟩ := List.getElem_of_mem hx
      exact h j hj
    · intro h j hj
      exact h _ (List.get_mem _ j hj)
  obtain ⟨r, f1, h1, _, htrue, hfalse⟩ :=
    substringExists_contract f hf hm data n w hw hwn hn hint
  refine ⟨r, f1, h1, ?_, ?_⟩
  · intro hrt
    obtain ⟨q, hq1, hq2, hq3, hq4⟩ := htrue hrt
    refine ⟨q, hq1, (hconv q).mpr hq2, ?_, hq4⟩
    intro i1 hi1 hall
    exact hq3 i1 hi1 ((hconv i1).mp hall)
  · intro hrf
    obtain ⟨hq1, hq2⟩ := hfalse hrf
    refine ⟨?_, hq2⟩
    intro i hi hall
    exact hq1 i hi ((hconv i).mp hall)

theorem rolling_hash_contract_witness :
    scenarioAlpha.WF ∧ 0 < scenarioAlpha.bitBufferSize ∧ (1 : Int) ≤ 5 ∧ (5 : Int) ≤ 7 ∧
    (7 : Int) ≤ xalphay.length ∧ (7 : Int) < 2 ^ 31 ∧
    ∃ r f1, BloomFilter.substringExists scenarioAlpha xalphay 7 5 = some (r, f1) ∧
      (r = true → ∃ i : Nat, (i : Int) ≤ 7 - 5 ∧
        (∀ j, ∀ hj : j < scenarioAlpha.numHashFunctions,
          isBitSet scenarioAlpha.buffer
            (rollingHash (scenarioAlpha.hashFunctions.get ⟨j, hj⟩) xalphay 5 i
              % scenarioAlpha.bitBufferSize) = some true) ∧
        (∀ i1, i1 < i → ¬ ∀ j, ∀ hj : j < scenarioAlpha.numHashFunctions,
          isBitSet scenarioAlpha.buffer
            (rollingHash (scenarioAlpha.hashFunctions.get ⟨j, hj⟩) xalphay 5 i1
              % scenarioAlpha.bitBufferSize) = some true) ∧
        f1.lastHash = scenarioAlpha.hashFunctions.map (fun h => rollingHash h xalphay 5 i)) ∧
      (r = false →
        (∀ i : Nat, (i : Int) ≤ 7 - 5 → ¬ ∀ j, ∀ hj : j < scenarioAlpha.numHashFunctions,
          isBitSet scenarioAlpha.buffer
            (rollingHash (scenarioAlpha.hashFunctions.get ⟨j, hj⟩) xalphay 5 i
              % scenarioAlpha.bitBufferSize) = some true) ∧
        f1.lastHash = scenarioAlpha.hashFunctions.map
          (fun h => rollingHash h xalphay 5 ((7 : Int) - 5).toNat)) :=
  ⟨by decide, by decide, by decide, by decide, by decide, by decide,
    rolling_hash_contract scenarioAlpha (by decide) (by decide) xalphay 7 5
      (by decide) (by decide) (by decide) (by decide)⟩

/-- C16, exact characterisation of positives: on a filter built by sized
construction, with `bitBufferSize > 0`, followed by the calls `add(a_1)`, ...,
`add(a_n)`, `exists(v)` returns, and it returns true if and only if for every
`j < k` there are an added value `a_i` and a `j' < k` with
`hashFunctions[j](v) % bitBufferSize = hashFunctions[j'](a_i) % bitBufferSize`;
with `k >= 1`, `exists(v)` is false on the freshly constructed filter. -/
theorem positives_characterised (bitsPerElement estimatedNumElements : Nat)
    (hs : List HashFunction) (adds : List (List Nat × Int)) (v : List Nat) (len : Int)
    (hm : 0 < (BloomFilter.sized bitsPerElement estimatedNumElements hs).bitBufferSize)
    (hk : 1 ≤ hs.length) (hadds : ∀ a ∈ adds, Readable a.1 a.2) (hv : Readable v len) :
    ∃ f1 r, addAll (BloomFilter.sized bitsPerElement estimatedNumElements hs) adds = some f1 ∧
      BloomFilter.exists f1 v len = some r ∧
      (r = true ↔ ∀ j, ∀ hj : j < hs.length, ∃ a ∈ adds, ∃ j1, ∃ hj1 : j1 < hs.length,
        hashIndex (hs.get ⟨j, hj⟩) v len
            (BloomFilter.sized bitsPerElement estimatedNumElements hs).bitBufferSize =
          hashIndex (hs.get ⟨j1, hj1⟩) a.1 a.2
            (BloomFilter.sized bitsPerElement estimatedNumElements hs).bitBufferSize) ∧
      BloomFilter.exists (BloomFilter.sized bitsPerElement estimatedNumElements hs) v len
        = some false := by
  have hf := sized_wf bitsPerElement estimatedNumElements hs
  generalize hf0 : BloomFilter.sized bitsPerElement estimatedNumElements hs = f0 at hm hf ⊢
  have hhs : f0.hashFunctions = hs := by rw [← hf0]; rfl
  have hzero : f0.buffer = List.replicate f0.byteBufferSize 0 := by rw [← hf0]; rfl
  obtain ⟨f1, h1, w1, e1, _, e3, hbits⟩ := addAll_spec adds f0 hf hm hadds
  have hm1 : 0 < f1.bitBufferSize := by rw [e1]; exact hm
  obtain ⟨r, hr1, hiff⟩ := exists_spec f1 v len w1 hm1 hv
  refine ⟨f1, r, h1, hr1, ?_, ?_⟩
  · rw [hiff, e1, e3, hhs]
    have hbit : ∀ h : HashFunction,
        isBitSet f1.buffer (h.value (v.take len.toNat) % f0.bitBufferSize) = some true ↔
        ∃ a ∈ adds, ∃ h1 ∈ hs,
          hashIndex h v len f0.bitBufferSize = hashIndex h1 a.1 a.2 f0.bitBufferSize := by
      intro h
      have hloc : h.value (v.take len.toNat) % f0.bitBufferSize / 8 < f0.buffer.length :=
        div_lt_of_lt_bits _ _ _ (Nat.mod_lt _ hm) hf.bits_le
      have hloc0 : h.value (v.take len.toNat) % f0.bitBufferSize / 8 < f0.byteBufferSize := by
        rw [← hf.1]; exact hloc
      rw [hbits _ hloc, hzero, replicate_zero_bit _ _ hloc0, hhs,
        hashIndex_eq h v len _ hv hm]
      simp only [Option.some.injEq, Bool.false_eq_true, false_or]
      constructor
      · rintro ⟨a, ha, h1, hh1, e⟩
        exact ⟨a, ha, h1, hh1, e.symm⟩
      · rintro ⟨a, ha, h1, hh1, e⟩
        exact ⟨a, ha, h1, hh1, e.symm⟩
    constructor
    · intro hall j hj
      obtain ⟨a, ha, h1, hh1, e⟩ := (hbit _).mp (hall _ (List.get_mem _ j hj))
      obtain ⟨j1, hj1, rfl⟩ := List.getElem_of_mem hh1
      exact ⟨a, ha, j1, hj1, e⟩
    · intro hall h hh
      obtain ⟨j, hj, rfl⟩ := List.getElem_of_mem hh
      obtain ⟨a, ha, j1, hj1, e⟩ := hall j hj
      exact (hbit _).mpr ⟨a, ha, _, List.get_mem _ j1 hj1, e⟩
  · exact exists_zero_buffer f0 hf hm (by rw [hhs]; omega) hzero v len hv

theorem positives_characterised_witness :
    0 < (BloomFilter.sized 10 10 [sumHash, sumHash3]).bitBufferSize ∧
    1 ≤ [sumHash, sumHash3].length ∧
    (∀ a ∈ [(alpha, (5 : Int))], Readable a.1 a.2) ∧ Readable (xalphay.drop 1) 5 ∧
    ∃ f1 r, addAll (BloomFilter.sized 10 10 [sumHash, sumHash3]) [(alpha, 5)] = some f1 ∧
      BloomFilter.exists f1 (xalphay.drop 1) 5 = some r ∧
      (r = true ↔ ∀ j, ∀ hj : j < [sumHash, sumHash3].length,
        ∃ a ∈ [(alpha, (5 : Int))], ∃ j1, ∃ hj1 : j1 < [sumHash, sumHash3].length,
          hashIndex ([sumHash, sumHash3].get ⟨j, hj⟩) (xalphay.drop 1) 5
              (BloomFilter.sized 10 10 [sumHash, sumHash3]).bitBufferSize =
            hashIndex ([sumHash, sumHash3].get ⟨j1, hj1⟩) a.1 a.2
              (BloomFilter.sized 10 10 [sumHash, sumHash3]).bitBufferSize) ∧
      BloomFilter.exists (BloomFilter.sized 10 10 [sumHash, sumHash3]) (xalphay.drop 1) 5
        = some false :=
  ⟨by decide, by decide, by decide, by decide,
    positives_characterised 10 10 [sumHash, sumHash3] [(alpha, 5)] (xalphay.drop 1) 5
      (by decide) (by decide) (by decide) (by decide)⟩

/-- C17, a scan does not depend on leftover scratch state: for every filter,
`data`, `n` and `w`, two runs of `substringExists(data, n, w)` that differ only
in the initial contents of the `k` entries of `lastHash` have the same outcome
and return the same boolean; hence a scan after any sequence of earlier queries
on the filter returns what it returns on the filter before them. -/
theorem scan_independent_of_scratch (f : BloomFilter) (a b : List Nat)
    (ha : a.length = f.numHashFunctions) (hb : b.length = f.numHashFunctions)
    (data : List Nat) (n w : Int) :
    (BloomFilter.substringExists { f with lastHash := a } data n w).map Prod.fst =
        (BloomFilter.substringExists { f with lastHash := b } data n w).map Prod.fst ∧
    ∀ (qs : List Query) (f1 : BloomFilter),
      runQueries { f with lastHash := a } qs = some f1 →
      (BloomFilter.substringExists f1 data n w).map Prod.fst =
        (BloomFilter.substringExists { f with lastHash := a } data n w).map Prod.fst := by
  constructor
  · rw [substringExists_fst, substringExists_fst]
    exact substringLoop_indep _ _ _ _ _ _ a b _ ha hb
  · intro qs f1 h
    have hframe := runQueries_frame qs _ f1 h
    have hlen := runQueries_length qs _ f1 h
    rw [substringExists_fst, substringExists_fst, hframe]
    exact substringLoop_indep _ _ _ _ _ _ _ _ _ (by simpa using hlen.trans ha) ha

theorem scan_independent_of_scratch_witness :
    [0, 0].length = scenarioAlpha.numHashFunctions ∧
    [7, 9].length = scenarioAlpha.numHashFunctions ∧
    ((BloomFilter.substringExists { scenarioAlpha with lastHash := [0, 0] } xalphay 7 5).map
        Prod.fst =
      (BloomFilter.substringExists { scenarioAlpha with lastHash := [7, 9] } xalphay 7 5).map
        Prod.fst ∧
    ∀ (qs : List Query) (f1 : BloomFilter),
      runQueries { scenarioAlpha with lastHash := [0, 0] } qs = some f1 →
      (BloomFilter.substringExists f1 xalphay 7 5).map Prod.fst =
        (BloomFilter.substringExists { scenarioAlpha with lastHash := [0, 0] }
          xalphay 7 5).map Prod.fst) :=
  ⟨by decide, by decide,
    scan_independent_of_scratch scenarioAlpha [0, 0] [7, 9] (by decide) (by decide)
      xalphay 7 5⟩

/-- C18, `add` commutes: for every filter state with `bitBufferSize > 0` and
every two byte sequences `a` and `b`, the byte buffer after `add(a)` then
`add(b)` is the buffer after `add(b)` then `add(a)`; and two sequences of `add`
calls with the same set of values, in any order and with any multiplicity,
leave the same buffer. -/
theorem add_commutes (f : BloomFilter) (hf : f.WF) (hm : 0 < f.bitBufferSize)
    (a : List Nat) (la : Int) (b : List Nat) (lb : Int) (hra : Readable a la)
    (hrb : Readable b lb) (adds1 adds2 : List (List Nat × Int))
    (h1 : ∀ x ∈ adds1, Readable x.1 x.2) (h2 : ∀ x ∈ adds2, Readable x.1 x.2)
    (hsame : ∀ x, x ∈ adds1 ↔ x ∈ adds2) :
    (∃ fa fab fb fba, BloomFilter.add f a la = some fa ∧
      BloomFilter.add fa b lb = some fab ∧ BloomFilter.add f b lb = some fb ∧
      BloomFilter.add fb a la = some fba ∧ fab.buffer = fba.buffer) ∧
    ∃ f1 f2, addAll f adds1 = some f1 ∧ addAll f adds2 = some f2 ∧
      f1.buffer = f2.buffer := by
  constructor
  · obtain ⟨fab, fba, e1, e2, e3⟩ := addAll_same_values f hf hm [(a, la), (b, lb)]
      [(b, lb), (a, la)]
      (by intro x hx
          simp only [List.mem_cons, List.mem_singleton, List.not_mem_nil, or_false] at hx
          rcases hx with rfl | rfl
          · exact hra
          · exact hrb)
      (by intro x hx
          simp only [List.mem_cons, List.mem_singleton, List.not_mem_nil, or_false] at hx
          rcases hx with rfl | rfl
          · exact hrb
          · exact hra)
      (by intro x
          simp only [List.mem_cons, List.mem_singleton, List.not_mem_nil, or_false]
          exact Or.comm)
    obtain ⟨fa, ea1, ea2⟩ := addAll_two f fab (a, la) (b, lb) e1
    obtain ⟨fb, eb1, eb2⟩ := addAll_two f fba (b, lb) (a, la) e2
    exact ⟨fa, fab, fb, fba, ea1, ea2, eb1, eb2, e3⟩
  · exact addAll_same_values f hf hm adds1 adds2 h1 h2 hsame

theorem add_commutes_witness :
    scenario.WF ∧ 0 < scenario.bitBufferSize ∧ Readable alpha 5 ∧ Readable xalphay 7 ∧
    (∀ x ∈ [(alpha, (5 : Int)), (xalphay, 7), (alpha, 5)], Readable x.1 x.2) ∧
    (∀ x ∈ [(xalphay, (7 : Int)), (alpha, 5)], Readable x.1 x.2) ∧
    (∀ x, x ∈ [(alpha, (5 : Int)), (xalphay, 7), (alpha, 5)] ↔
      x ∈ [(xalphay, (7 : Int)), (alpha, 5)]) ∧
    ((∃ fa fab fb fba, BloomFilter.add scenario alpha 5 = some fa ∧
      BloomFilter.add fa xalphay 7 = some fab ∧ BloomFilter.add scenario xalphay 7 = some fb ∧
      BloomFilter.add fb alpha 5 = some fba ∧ fab.buffer = fba.buffer) ∧
    ∃ f1 f2, addAll scenario [(alpha, 5), (xalphay, 7), (alpha, 5)] = some f1 ∧
      addAll scenario [(xalphay, 7), (alpha, 5)] = some f2 ∧ f1.buffer = f2.buffer) :=
  have hsame : ∀ x, x ∈ [(alpha, (5 : Int)), (xalphay, 7), (alpha, 5)] ↔
      x ∈ [(xalphay, (7 : Int)), (alpha, 5)] := by
    intro x
    simp only [List.mem_cons, List.mem_singleton, List.not_mem_nil, or_false]
    tauto
  ⟨by decide, by decide, by decide, by decide, by decide, by decide, hsame,
    add_commutes scenario (by decide) (by decide) alpha 5 xalphay 7 (by decide) (by decide)
      [(alpha, 5), (xalphay, 7), (alpha, 5)] [(xalphay, 7), (alpha, 5)]
      (by decide) (by decide) hsame⟩

/-- C19, window reads stay inside the data: for `data` of length `n`, an `int`,
and `1 <= w <= n`, every window `data[i .. i+w)` with `0 <= i <= n - w` that the
scan hands to a hash function lies within the `n` bytes, and so does the
departed byte `data[i]`; the bounds-checked scan never takes an out-of-bounds
branch and returns. -/
theorem window_reads_inside (f : BloomFilter) (hf : f.WF) (hm : 0 < f.bitBufferSize)
    (data : List Nat) (n w : Int) (hlen : (data.length : Int) = n) (hw : 1 ≤ w)
    (hwn : w ≤ n) (hint : n < 2 ^ 31) :
    (∀ i : Nat, (i : Int) ≤ n - w →
      i + w.toNat ≤ data.length ∧
      window (data.drop i) w = some ((data.drop i).take w.toNat) ∧
      ((data.drop i).take w.toNat).length = w.toNat ∧
      ∃ c, data.get? i = some c) ∧
    ∃ r f1, BloomFilter.substringExists f data n w = some (r, f1) := by
  constructor
  · intro i hi
    have hr := readable_drop data n w i hw (by omega) hi
    have hi1 : i < data.length := by omega
    refine ⟨by omega, window_eq _ _ hr, ?_, ⟨data[i], List.get?_eq_get hi1⟩⟩
    rw [List.length_take, List.length_drop]
    omega
  · obtain ⟨r, f1, h1, _⟩ :=
      substringExists_contract f hf hm data n w hw hwn (by omega) hint
    exact ⟨r, f1, h1⟩

theorem window_reads_inside_witness :
    scenarioAlpha.WF ∧ 0 < scenarioAlpha.bitBufferSize ∧
    ((xalphay.take 7).length : Int) = 7 ∧ (1 : Int) ≤ 5 ∧ (5 : Int) ≤ 7 ∧
    (7 : Int) < 2 ^ 31 ∧
    ((∀ i : Nat, (i : Int) ≤ 7 - 5 →
      i + (5 : Int).toNat ≤ (xalphay.take 7).length ∧
      window ((xalphay.take 7).drop i) 5 = some (((xalphay.take 7).drop i).take (5 : Int).toNat) ∧
      (((xalphay.take 7).drop i).take (5 : Int).toNat).length = (5 : Int).toNat ∧
      ∃ c, (xalphay.take 7).get? i = some c) ∧
    ∃ r f1, BloomFilter.substringExists scenarioAlpha (xalphay.take 7) 7 5 = some (r, f1)) :=
  ⟨by decide, by decide, by decide, by decide, by decide, by decide,
    window_reads_inside scenarioAlpha (by decide) (by decide) (xalphay.take 7) 7 5
      (by decide) (by decide) (by decide) (by decide)⟩

/-- C20 as stated, refuted: on a filter with `numHashFunctions = 0`, at
`dataLen = 2147483647` and `substringLength = -1` the integer `n - w + 1` is at
least 1, but the `int` loop bound overflows to a negative value, no window is
examined and `substringExists` returns false. -/
theorem zero_hash_functions_overflow :
    (BloomFilter.sized 10 10 []).numHashFunctions = 0 ∧
    (1 : Int) ≤ 2147483647 - (-1) + 1 ∧
    scanBound 2147483647 (-1) = -2147483647 ∧
    BloomFilter.substringExists (BloomFilter.sized 10 10 [])
        (List.replicate 2147483647 120) 2147483647 (-1)
      = some (false, BloomFilter.sized 10 10 []) ∧
    (BloomFilter.substringExists (BloomFilter.sized 10 10 [])
        (List.replicate 2147483647 120) 2147483647 (-1)).map Prod.fst ≠ some true :=
  ⟨by decide, by decide, by decide, rfl, by decide⟩

/-- C20, amended: on a filter with `numHashFunctions = 0`, `add` leaves the
filter unchanged, `exists(v)` returns true for every `v`, whatever the buffer
holds, and `substringExists(data, n, w)` returns true whenever
`1 <= n - w + 1 <= 2 ^ 31 - 1`, that is when at least one window exists and
the loop bound does not overflow `int`. -/
theorem zero_hash_functions (f : BloomFilter) (hk : f.numHashFunctions = 0) :
    (∀ (input : List Nat) (len : Int), BloomFilter.add f input len = some f) ∧
    (∀ (v : List Nat) (len : Int), BloomFilter.exists f v len = some true) ∧
    (∀ (data : List Nat) (n w : Int), 1 ≤ n - w + 1 → n - w + 1 ≤ 2 ^ 31 - 1 →
      BloomFilter.substringExists f data n w = some (true, f)) := by
  obtain ⟨hs, lastHash, byteBufferSize, bitBufferSize, buffer⟩ := f
  have hnil : hs = [] := List.length_eq_zero.mp hk
  subst hnil
  refine ⟨?_, ?_, ?_⟩
  · intro input len
    simp only [BloomFilter.add, addLoop]
  · intro v len
    simp only [BloomFilter.exists, existsLoop]
  · intro data n w hcount hmax
    obtain ⟨c, hc⟩ : ∃ c, (scanBound n w).toNat = c + 1 := by
      rw [scanBound_eq n w (by omega) (by omega)]
      exact ⟨(n - w + 1).toNat - 1, by omega⟩
    simp only [BloomFilter.substringExists, hc, substringLoop, getHashesForCharCodes,
      getHashesLoop, List.length_nil, List.range_zero, allSetLoop]

theorem zero_hash_functions_witness :
    (BloomFilter.sized 10 10 []).numHashFunctions = 0 ∧
    ((∀ (input : List Nat) (len : Int),
      BloomFilter.add (BloomFilter.sized 10 10 []) input len
        = some (BloomFilter.sized 10 10 [])) ∧
    (∀ (v : List Nat) (len : Int),
      BloomFilter.exists (BloomFilter.sized 10 10 []) v len = some true) ∧
    (∀ (data : List Nat) (n w : Int), 1 ≤ n - w + 1 → n - w + 1 ≤ 2 ^ 31 - 1 →
      BloomFilter.substringExists (BloomFilter.sized 10 10 []) data n w
        = some (true, BloomFilter.sized 10 10 []))) :=
  ⟨by decide, zero_hash_functions (BloomFilter.sized 10 10 []) (by decide)⟩

end Bloom
